import Mathlib

/-!
Verification of the proofvisualizer S-expression pipeline.

This file shallowly embeds the program's core (the `SExprParser` recursive
descent parser, the `SExprToTree` converter with its session-global binding
map, and the lazy-rendering contract of `ProofVisualizer`) as executable Lean
definitions, and proves or refutes the specification claims about them.

Modelling conventions:
- The parser's mutable cursor (`this.pos` into `this.input`) is modelled in
  suffix style: each function takes the remaining input (a `List Char`) and
  returns the remaining input after it; a thrown error carries the remaining
  input at the throw site, which is what the catch clause of `parseAll`
  inspects.
- The recursive loops of `parseExpr`/`parseList` are given a fuel parameter;
  fuel exhaustion is the distinguished error `ParseError.outOfFuel`, and the
  top-level wrappers supply fuel that is proved sufficient (the termination
  claim), so `outOfFuel` is unreachable through the public entry points.
- JS object identity for tree nodes (which the converter deliberately exploits
  for sharing) is modelled with an explicit heap: a node is an index into
  `ConvState.heap`, and two children are "the same node object" exactly when
  they are the same index.
-/

/-- An S-expression as in SExprParser.ts: `export type SExpr = string | SExpr[]`,
a string atom or a list of S-expressions. -/
inductive SExpr where
  | atom : String → SExpr
  | list : List SExpr → SExpr
deriving Repr

mutual

/-- Decidable structural equality of S-expressions. -/
def SExpr.decEq : (a b : SExpr) → Decidable (a = b)
  | .atom x, .atom y =>
    match String.decEq x y with
    | isTrue h => isTrue (congrArg SExpr.atom h)
    | isFalse h => isFalse (fun hc => h (SExpr.atom.inj hc))
  | .atom _, .list _ => isFalse (fun hc => SExpr.noConfusion hc)
  | .list _, .atom _ => isFalse (fun hc => SExpr.noConfusion hc)
  | .list es, .list fs =>
    match SExpr.decEqList es fs with
    | isTrue h => isTrue (congrArg SExpr.list h)
    | isFalse h => isFalse (fun hc => h (SExpr.list.inj hc))

/-- Decidable structural equality of S-expression lists. -/
def SExpr.decEqList : (es fs : List SExpr) → Decidable (es = fs)
  | [], [] => isTrue rfl
  | [], _ :: _ => isFalse (fun hc => List.noConfusion hc)
  | _ :: _, [] => isFalse (fun hc => List.noConfusion hc)
  | e :: es, f :: fs =>
    match SExpr.decEq e f, SExpr.decEqList es fs with
    | isTrue h1, isTrue h2 => isTrue (by rw [h1, h2])
    | isFalse h1, _ => isFalse (fun hc => h1 (List.cons.inj hc).1)
    | _, isFalse h2 => isFalse (fun hc => h2 (List.cons.inj hc).2)

end

instance : DecidableEq SExpr := SExpr.decEq

deriving instance DecidableEq for Except

namespace SExprParser

/-- A parser failure: a genuine syntax error carrying the message and the
remaining input at the throw site (the mutable `this.pos` at the moment of the
throw), or fuel exhaustion (an artifact of the embedding, proved unreachable
for the fuel the wrappers supply). -/
inductive ParseError where
  | outOfFuel : ParseError
  | syntaxErr : String → List Char → ParseError
deriving Repr, DecidableEq

/-- The whitespace characters of skipWhitespace. -/
def isWs (c : Char) : Bool := c = ' ' || c = '\t' || c = '\n' || c = '\r'

/-- Worker for skipWhitespace. The flag records whether the scan is inside a
`;`-comment; the source's inner comment loop stops at the newline and the outer
loop then consumes it as whitespace, which is the same as consuming through the
newline here. -/
def skipWsAux : Bool → List Char → List Char
  | _, [] => []
  | true, c :: rest => if c = '\n' then skipWsAux false rest else skipWsAux true rest
  | false, c :: rest =>
    if isWs c then skipWsAux false rest
    else if c = ';' then skipWsAux true rest
    else c :: rest

/-- skipWhitespace(): skips whitespace and `;`-to-end-of-line comments. -/
def skipWhitespace (inp : List Char) : List Char := skipWsAux false inp

/-- The characters that terminate an unquoted atom. -/
def isDelim (c : Char) : Bool := isWs c || c = '(' || c = ')'

/-- The character produced by a backslash escape in parseString: n, t, r
become newline, tab, carriage return; backslash, quote and every other
character stand for themselves. -/
def escRepl (c : Char) : Char :=
  if c = 'n' then '\n' else if c = 't' then '\t' else if c = 'r' then '\r' else c

/-- The scanning loop of parseString, after the opening quote: `escaped` means a
backslash was just consumed, `acc` is the unescaped content so far. Escaped
n, t, r become the control characters; every other escaped character (including
backslash and quote) is passed through; end of input is the unclosed-string
error. -/
def parseStringLoop : List Char → Bool → List Char → Except ParseError (String × List Char)
  | [], _, _ => .error (.syntaxErr "Unclosed string literal" [])
  | c :: rest, true, acc => parseStringLoop rest false (acc ++ [escRepl c])
  | c :: rest, false, acc =>
    if c = '\\' then parseStringLoop rest true acc
    else if c = '"' then .ok (String.mk acc, rest)
    else parseStringLoop rest false (acc ++ [c])

/-- parseString(): consumes the opening quote and runs the loop. -/
def parseString (inp : List Char) : Except ParseError (String × List Char) :=
  match inp with
  | '"' :: rest => parseStringLoop rest false []
  | _ => .error (.syntaxErr "Expected opening quote" inp)

/-- The scanning loop of parseQuotedAtom, after the opening bar: content is
taken verbatim up to the next bar. -/
def parseQuotedAtomLoop : List Char → List Char → Except ParseError (String × List Char)
  | [], _ => .error (.syntaxErr "Unclosed quoted atom: missing closing bar" [])
  | c :: rest, acc =>
    if c = '|' then .ok (String.mk acc, rest) else parseQuotedAtomLoop rest (acc ++ [c])

/-- parseQuotedAtom(): consumes the opening bar and runs the loop. -/
def parseQuotedAtom (inp : List Char) : Except ParseError (String × List Char) :=
  match inp with
  | '|' :: rest => parseQuotedAtomLoop rest []
  | _ => .error (.syntaxErr "Expected opening bar" inp)

/-- parseAtom(): skips whitespace, then dispatches on the first character:
quoted string, quoted atom, or a maximal run of non-delimiter characters. -/
def parseAtom (inp : List Char) : Except ParseError (String × List Char) :=
  match skipWhitespace inp with
  | [] => .error (.syntaxErr "Unexpected end of input while parsing atom" [])
  | c :: rest =>
    if c = '"' then parseString (c :: rest)
    else if c = '|' then parseQuotedAtom (c :: rest)
    else .ok (String.mk ((c :: rest).takeWhile (fun d => !isDelim d)),
              (c :: rest).dropWhile (fun d => !isDelim d))

mutual

/-- parseExpr(): skip whitespace, then a list on `(`, an error on `)` or end of
input, otherwise an atom. -/
def parseExpr : Nat → List Char → Except ParseError (SExpr × List Char)
  | 0, _ => .error .outOfFuel
  | fuel + 1, inp =>
    match skipWhitespace inp with
    | [] => .error (.syntaxErr "Unexpected end of input" [])
    | c :: rest =>
      if c = '(' then parseListLoop fuel (skipWhitespace rest) []
      else if c = ')' then .error (.syntaxErr "Unexpected close paren" (c :: rest))
      else
        match parseAtom (c :: rest) with
        | .error e => .error e
        | .ok (s, r) => .ok (.atom s, r)

/-- The element loop of parseList(), entered after the opening parenthesis and
an initial skipWhitespace: elements accumulate until the closing parenthesis;
end of input is the unclosed-list error. -/
def parseListLoop : Nat → List Char → List SExpr → Except ParseError (SExpr × List Char)
  | 0, _, _ => .error .outOfFuel
  | fuel + 1, inp, acc =>
    match inp with
    | [] => .error (.syntaxErr "Unclosed list: missing closing parenthesis" [])
    | c :: rest =>
      if c = ')' then .ok (.list acc, rest)
      else
        match parseExpr fuel (c :: rest) with
        | .error e => .error e
        | .ok (e, r) => parseListLoop fuel (skipWhitespace r) (acc ++ [e])

end

/-- The loop of parseAll(): parse expressions one after another; when a parse
attempt fails, skip whitespace from the throw site: at end of input the failure
is swallowed, otherwise the original error is rethrown. -/
def parseAllLoop : Nat → List Char → List SExpr → Except ParseError (List SExpr)
  | 0, _, _ => .error .outOfFuel
  | fuel + 1, inp, acc =>
    match inp with
    | [] => .ok acc
    | c :: rest =>
      match parseExpr fuel (c :: rest) with
      | .ok (e, r) => parseAllLoop fuel (skipWhitespace r) (acc ++ [e])
      | .error .outOfFuel => .error .outOfFuel
      | .error (.syntaxErr m r) =>
        match skipWhitespace r with
        | [] => .ok acc
        | _ => .error (.syntaxErr m r)

/-- Fuel that the termination lemmas prove sufficient for any input. -/
def fuelFor (inp : List Char) : Nat := 2 * inp.length + 2

/-- parse(): one expression, after which only whitespace and comments may
remain. -/
def parse (inp : List Char) : Except ParseError SExpr :=
  match parseExpr (fuelFor inp) (skipWhitespace inp) with
  | .error e => .error e
  | .ok (e, r) =>
    match skipWhitespace r with
    | [] => .ok e
    | r' => .error (.syntaxErr "Unexpected characters" r')

/-- parseAll(): all top-level expressions of the input. -/
def parseAll (inp : List Char) : Except ParseError (List SExpr) :=
  parseAllLoop (fuelFor inp) (skipWhitespace inp) []

end SExprParser

/-- The input consists solely of whitespace and semicolon-to-end-of-line
comments; the flag records whether the scan is inside a comment. -/
def wsCommentOnlyAux : Bool → List Char → Bool
  | _, [] => true
  | true, c :: rest =>
    if c = '\n' then wsCommentOnlyAux false rest else wsCommentOnlyAux true rest
  | false, c :: rest =>
    if SExprParser.isWs c then wsCommentOnlyAux false rest
    else if c = ';' then wsCommentOnlyAux true rest
    else false

/-- The input consists solely of whitespace and comments. -/
def wsCommentOnly (inp : List Char) : Bool := wsCommentOnlyAux false inp

mutual

/-- Size of an S-expression (number of atoms and lists); an upper bound on the
recursion depth of the converter, used to pick sufficient fuel. -/
def SExpr.size : SExpr → Nat
  | .atom _ => 1
  | .list es => SExpr.sizeList es + 1

/-- Sum of the sizes of a list of S-expressions. -/
def SExpr.sizeList : List SExpr → Nat
  | [] => 0
  | e :: es => SExpr.size e + SExpr.sizeList es

end

/-- Whether an S-expression has the shape that convert treats as a binding
form: a 3-element list headed by the atom `let` or `let-proof`. -/
def SExpr.isLetForm : SExpr → Bool
  | .list [.atom n, _, _] => n = "let" || n = "let-proof"
  | _ => false

mutual

/-- No let/let-proof binding form occurs anywhere in the expression. -/
def SExpr.noLet : SExpr → Bool
  | .atom _ => true
  | .list es => !SExpr.isLetForm (.list es) && SExpr.noLetList es

/-- No let/let-proof binding form occurs in any of the expressions. -/
def SExpr.noLetList : List SExpr → Bool
  | [] => true
  | e :: es => SExpr.noLet e && SExpr.noLetList es

end

namespace SExprToTree

/-- TreeNode from types.ts: an optional display name and ordered children. The
children are node ids (indices into `ConvState.heap`), so that JS object
identity and sharing are observable in the model. -/
structure TreeNode where
  name : Option String
  children : List Nat
deriving Repr, DecidableEq

/-- The converter's session state: the allocated node objects, and the static
`leafMap` from binding names to node ids (`static leafMap = new Map()`). -/
structure ConvState where
  heap : List TreeNode
  leafMap : List (String × Nat)
deriving Repr, DecidableEq

/-- The state at session start: no nodes, empty leafMap. -/
def ConvState.empty : ConvState := ⟨[], []⟩

/-- JS `Map.get`: the value stored under the key, if any. -/
def mapGet : List (String × Nat) → String → Option Nat
  | [], _ => none
  | (k, v) :: rest, key => if k = key then some v else mapGet rest key

/-- JS `Map.set`: overwrite the entry in place if the key is present, else
append a new entry. -/
def mapSet : List (String × Nat) → String → Nat → List (String × Nat)
  | [], key, v => [(key, v)]
  | (k, w) :: rest, key, v =>
    if k = key then (key, v) :: rest else (k, w) :: mapSet rest key v

/-- Allocate a fresh node object on the heap, returning its id. -/
def alloc (s : ConvState) (n : TreeNode) : Nat × ConvState :=
  (s.heap.length, ⟨s.heap ++ [n], s.leafMap⟩)

/-- The node object stored under an id. -/
def heapGet (s : ConvState) (i : Nat) : Option TreeNode := s.heap.get? i

/-- isKeyword on a string: the first character is ':' (an empty string is not a
keyword, as in `expr[0] === ':'`). -/
def isKeywordStr (s : String) : Bool :=
  match s.data with
  | c :: _ => c = ':'
  | [] => false

/-- isKeyword from the source: a string atom whose first character is ':'. -/
def isKeyword : SExpr → Bool
  | .atom s => isKeywordStr s
  | .list _ => false

mutual

/-- makeString: a string renders as itself, a list as the parenthesized
space-joined rendering of its elements (char-list form). -/
def makeString : SExpr → List Char
  | .atom s => s.data
  | .list es => '(' :: makeStringList es ++ [')']

/-- The `expr.map(makeString).join(' ')` of the list case of makeString. -/
def makeStringList : List SExpr → List Char
  | [] => []
  | [e] => makeString e
  | e :: e2 :: es => makeString e ++ ' ' :: makeStringList (e2 :: es)

end

/-- The display name of a general list node: its first element if that is a
string, otherwise the first element rendered with makeString. -/
def nodeName : SExpr → String
  | .atom n => n
  | .list l => String.mk (makeString (.list l))

mutual

/-- convert with explicit fuel (every function of this mutual block consumes
one unit of fuel per call, so the block is structural on the fuel; the wrapper
`convert` supplies fuel proved sufficient). An atom is looked up in leafMap
and otherwise becomes a fresh leaf; the empty list becomes a node named "()";
a 3-element list headed by the atom `let` or `let-proof` is a binding form;
any other list becomes a node named after its first element whose children
come from the keyword-aware scanning loop. -/
def convertAux : Nat → SExpr → ConvState → Except String (Nat × ConvState)
  | 0, _, _ => .error "out of fuel"
  | _ + 1, .atom a, s =>
    match mapGet s.leafMap a with
    | some nid => .ok (nid, s)
    | none => .ok (alloc s ⟨some a, []⟩)
  | _ + 1, .list [], s => .ok (alloc s ⟨some "()", []⟩)
  | fuel + 1, .list [.atom n, bindings, body], s =>
    if n = "let" || n = "let-proof" then
      match bindings with
      | .list bs => convertLetAux fuel bs body s
      | .atom _ => .error "Expected list of bindings for let/let-proof"
    else
      match convertChildrenAux fuel [bindings, body] s with
      | .error e => .error e
      | .ok (cids, s1) => .ok (alloc s1 ⟨some n, cids⟩)
  | fuel + 1, .list (first :: rest), s =>
    match convertChildrenAux fuel rest s with
    | .error e => .error e
    | .ok (cids, s1) => .ok (alloc s1 ⟨some (nodeName first), cids⟩)

/-- The binding loop of convertLet: each binding must be a 2-element list whose
first component is a string; its value is converted, wrapped in a fresh node
named after the binding, and installed in leafMap (overwriting); finally the
body is converted. -/
def convertLetAux : Nat → List SExpr → SExpr → ConvState → Except String (Nat × ConvState)
  | 0, _, _, _ => .error "out of fuel"
  | fuel + 1, [], body, s => convertAux fuel body s
  | fuel + 1, b :: bs, body, s =>
    match b with
    | .list [.atom name, value] =>
      (match convertAux fuel value s with
       | .error e => .error e
       | .ok (vid, s1) =>
         match alloc s1 ⟨some name, [vid]⟩ with
         | (wid, s2) => convertLetAux fuel bs body ⟨s2.heap, mapSet s2.leafMap name wid⟩)
    | .list [_, _] => .error "Expected string for binding name"
    | _ => .error "Expected tuple for binding"

/-- The child-scanning loop of convert over the elements after the head: a
keyword atom followed by an existing non-keyword element consumes both and
produces a node named by the keyword with convertToArray of the value as its
children; any other element is converted normally. -/
def convertChildrenAux : Nat → List SExpr → ConvState → Except String (List Nat × ConvState)
  | 0, _, _ => .error "out of fuel"
  | _ + 1, [], s => .ok ([], s)
  | fuel + 1, [e], s =>
    (match convertAux fuel e s with
     | .error err => .error err
     | .ok (cid, s1) => .ok ([cid], s1))
  | fuel + 1, .atom k :: v :: rest, s =>
    if isKeywordStr k && !isKeyword v then
      match convertToArrayAux fuel v s with
      | .error err => .error err
      | .ok (cids, s1) =>
        match alloc s1 ⟨some k, cids⟩ with
        | (kid, s2) =>
          match convertChildrenAux fuel rest s2 with
          | .error err => .error err
          | .ok (more, s3) => .ok (kid :: more, s3)
    else
      match convertAux fuel (.atom k) s with
      | .error err => .error err
      | .ok (cid, s1) =>
        match convertChildrenAux fuel (v :: rest) s1 with
        | .error err => .error err
        | .ok (more, s2) => .ok (cid :: more, s2)
  | fuel + 1, .list l :: v :: rest, s =>
    match convertAux fuel (.list l) s with
    | .error err => .error err
    | .ok (cid, s1) =>
      match convertChildrenAux fuel (v :: rest) s1 with
      | .error err => .error err
      | .ok (more, s2) => .ok (cid :: more, s2)

/-- convertToArray: a string becomes a single-element array holding one fresh
leaf node (no leafMap lookup); a list maps convert over its elements. -/
def convertToArrayAux : Nat → SExpr → ConvState → Except String (List Nat × ConvState)
  | 0, _, _ => .error "out of fuel"
  | _ + 1, .atom a, s =>
    (match alloc s ⟨some a, []⟩ with
     | (nid, s1) => .ok ([nid], s1))
  | fuel + 1, .list es, s => convertListAux fuel es s

/-- The `expr.map((x) => this.convert(x))` of convertToArray, threading the
session state left to right. -/
def convertListAux : Nat → List SExpr → ConvState → Except String (List Nat × ConvState)
  | 0, _, _ => .error "out of fuel"
  | _ + 1, [], s => .ok ([], s)
  | fuel + 1, e :: es, s =>
    match convertAux fuel e s with
    | .error err => .error err
    | .ok (nid, s1) =>
      match convertListAux fuel es s1 with
      | .error err => .error err
      | .ok (nids, s2) => .ok (nid :: nids, s2)

end

/-- convert: the public entry point; the fuel `3 * e.size` is an upper bound on
the length of any chain of calls of the mutual block (each call is charged one
unit), proved sufficient where needed. -/
def convert (e : SExpr) (s : ConvState) : Except String (Nat × ConvState) :=
  convertAux (3 * e.size) e s

end SExprToTree

namespace SExprToTree

/-- Presence of keys: every key of the first map is present in the second. -/
def keysSub (m m2 : List (String × Nat)) : Prop :=
  ∀ k v, mapGet m k = some v → ∃ w, mapGet m2 k = some w

/-- The let expression of claim C1: `(let ((x 1)) (f x x))`. -/
def letExample : SExpr :=
  .list [.atom "let", .list [.list [.atom "x", .atom "1"]],
    .list [.atom "f", .atom "x", .atom "x"]]

/-- The state produced by converting letExample against a state with no
binding for "1": a fresh leaf for 1, the wrapper node for x (child: the leaf),
and the f node whose two children are the wrapper, with x now bound to the
wrapper. -/
def letExampleFinal (s : ConvState) : ConvState :=
  ⟨s.heap ++ [⟨some "1", []⟩, ⟨some "x", [s.heap.length]⟩,
      ⟨some "f", [s.heap.length + 1, s.heap.length + 1]⟩],
   mapSet s.leafMap "x" (s.heap.length + 1)⟩

/-- A session state that has no binding for x but binds the literal "1" to an
existing node named "weird". -/
def sBadC1 : ConvState := ⟨[⟨some "weird", []⟩], [("1", 0)]⟩

/-- The expression of claim C3: `(f :key v :other (a b))`. -/
def kwExample : SExpr :=
  .list [.atom "f", .atom ":key", .atom "v", .atom ":other", .list [.atom "a", .atom "b"]]

/-- The state produced by converting kwExample: fresh leaf v, the :key node,
fresh leaves a and b, the :other node, and the f node. -/
def kwExampleFinal (s : ConvState) : ConvState :=
  ⟨s.heap ++ [⟨some "v", []⟩, ⟨some ":key", [s.heap.length]⟩, ⟨some "a", []⟩,
      ⟨some "b", []⟩, ⟨some ":other", [s.heap.length + 2, s.heap.length + 3]⟩,
      ⟨some "f", [s.heap.length + 1, s.heap.length + 4]⟩],
   s.leafMap⟩

end SExprToTree

namespace FileLoader

/-- The message carried by a parse error (FileLoader propagates the parser's
exception; only its message survives into our single error type). -/
def errMessage : SExprParser.ParseError → String
  | .outOfFuel => "out of fuel"
  | .syntaxErr m _ => m

/-- The `sExprs.map(sExpr => SExprToTree.convert(sExpr))` of parseContent:
successive top-level expressions are converted against the same session state. -/
def convertSeq : List SExpr → SExprToTree.ConvState →
    Except String (List Nat × SExprToTree.ConvState)
  | [], s => .ok ([], s)
  | e :: es, s =>
    match SExprToTree.convert e s with
    | .error err => .error err
    | .ok (nid, s1) =>
      match convertSeq es s1 with
      | .error err => .error err
      | .ok (nids, s2) => .ok (nid :: nids, s2)

/-- parseContent: parse all S-expressions of one document and convert each to a
tree, against the session state (which is never cleared). -/
def parseContent (content : List Char) (s : SExprToTree.ConvState) :
    Except String (List Nat × SExprToTree.ConvState) :=
  match SExprParser.parseAll content with
  | .error e => .error (errMessage e)
  | .ok es => convertSeq es s

/-- A whole session: successive document loads thread the same static state. -/
def loadSession : List (List Char) → SExprToTree.ConvState →
    Except String (List (List Nat) × SExprToTree.ConvState)
  | [], s => .ok ([], s)
  | d :: ds, s =>
    match parseContent d s with
    | .error e => .error e
    | .ok (roots, s1) =>
      match loadSession ds s1 with
      | .error e => .error e
      | .ok (rest, s2) => .ok (roots :: rest, s2)

end FileLoader

namespace ProofVisualizer

/-- One rendered DOM element: it displays one occurrence of the tree node with
id `nid`; `expanded` is whether its children container is visible (the
`isExpanded` closure variable / `style.display`), `rendered` is the
`data-rendered` attribute of the children container, and `kids` are the child
elements materialized inside that container. -/
inductive VElem where
  | mk : (nid : Nat) → (expanded : Bool) → (rendered : Bool) → (kids : List VElem) → VElem
deriving Repr

/-- The node id an element displays. -/
def VElem.nid : VElem → Nat
  | .mk n _ _ _ => n

/-- Whether the element's children container is visible. -/
def VElem.expanded : VElem → Bool
  | .mk _ e _ _ => e

/-- Whether the element's children have been materialized (data-rendered). -/
def VElem.rendered : VElem → Bool
  | .mk _ _ r _ => r

/-- The materialized child elements. -/
def VElem.kids : VElem → List VElem
  | .mk _ _ _ k => k

instance : Inhabited VElem := ⟨.mk 0 false false []⟩

/-- createNodeElement: a fresh element for one occurrence of a node; its
children container starts hidden with data-rendered="false" and nothing
materialized. -/
def createNodeElement (nid : Nat) : VElem := .mk nid false false []

/-- renderChildren: materialize one fresh child element per immediate child of
the node (each child occurrence gets its own element; grandchildren stay
unmaterialized). -/
def renderChildren (s : SExprToTree.ConvState) (nid : Nat) : List VElem :=
  match SExprToTree.heapGet s nid with
  | some n => n.children.map createNodeElement
  | none => []

/-- The click handler on an element: toggle visibility; on the first expansion
(data-rendered still "false") run renderChildren once and set data-rendered. -/
def click (s : SExprToTree.ConvState) : VElem → VElem
  | .mk nid expanded rendered kids =>
    if !expanded && !rendered then .mk nid true true (renderChildren s nid)
    else .mk nid (!expanded) rendered kids

/-- Deliver a click to the occurrence reached by the given path of child
indices (state is per element, hence per occurrence). -/
def clickAt (s : SExprToTree.ConvState) : List Nat → VElem → VElem
  | [], e => click s e
  | i :: p, .mk nid ex r kids => .mk nid ex r (kids.set i (clickAt s p (kids.getD i default)))

end ProofVisualizer

namespace ProofVisualizer

/-- A heap in which node 2 has the shared node 1 as both of its children
(the result of converting (let ((x a)) (f x x))-like input). -/
def sharedHeapState : SExprToTree.ConvState :=
  ⟨[⟨some "a", []⟩, ⟨some "x", [0]⟩, ⟨some "f", [1, 1]⟩], []⟩

end ProofVisualizer

namespace SExprParser

/-- Characters an unquoted atom may consist of so that rendering with
makeString and reparsing is exact: not a delimiter, and not one of the
characters that start a quoted string, a quoted atom or a comment. -/
def plainChar (c : Char) : Bool :=
  !isDelim c && !(c = '"') && !(c = '|') && !(c = ';')

/-- The remainder following a rendered expression: empty input or a delimiter,
so that an unquoted atom read back from the rendering stops exactly at the
rendering's end. -/
def delimOrNil : List Char → Bool
  | [] => true
  | c :: _ => isDelim c

/-- The six characters of the document "a\nb" written as a quoted string:
quote, a, backslash, n, b, quote. -/
def textC5 : List Char := ['"', 'a', '\\', 'n', 'b', '"']

end SExprParser

mutual

/-- S-expressions whose atoms are nonempty and consist of plain characters:
the fragment on which rendering with makeString and reparsing is exact. -/
def SExpr.plain : SExpr → Bool
  | .atom s => !s.data.isEmpty && s.data.all SExprParser.plainChar
  | .list es => SExpr.plainList es

/-- SExpr.plain on every element of a list. -/
def SExpr.plainList : List SExpr → Bool
  | [] => true
  | e :: es => SExpr.plain e && SExpr.plainList es

end

mutual

/-- Fuel consumed by the parser loops while reading back a rendered
expression: one unit per parseExpr or parseListLoop call. -/
def SExpr.cost : SExpr → Nat
  | .atom _ => 1
  | .list es => 1 + SExpr.costList es

/-- Fuel consumed by the element loop on a rendered list body, and equally by
parseAllLoop on a rendered top-level sequence. -/
def SExpr.costList : List SExpr → Nat
  | [] => 1
  | e :: es => 1 + SExpr.cost e + SExpr.costList es

end

namespace SExprParser

/-- Unfolding: parseExpr with no fuel. -/
theorem parseExpr_zero (inp : List Char) : parseExpr 0 inp = .error .outOfFuel := rfl

/-- Unfolding: one step of parseExpr. -/
theorem parseExpr_succ (fuel : Nat) (inp : List Char) :
    parseExpr (fuel + 1) inp =
      (match skipWhitespace inp with
       | [] => .error (.syntaxErr "Unexpected end of input" [])
       | c :: rest =>
         if c = '(' then parseListLoop fuel (skipWhitespace rest) []
         else if c = ')' then .error (.syntaxErr "Unexpected close paren" (c :: rest))
         else
           match parseAtom (c :: rest) with
           | .error e => .error e
           | .ok (s, r) => .ok (.atom s, r)) := rfl

/-- Unfolding: parseListLoop with no fuel. -/
theorem parseListLoop_zero (inp : List Char) (acc : List SExpr) :
    parseListLoop 0 inp acc = .error .outOfFuel := rfl

/-- Unfolding: one step of parseListLoop. -/
theorem parseListLoop_succ (fuel : Nat) (inp : List Char) (acc : List SExpr) :
    parseListLoop (fuel + 1) inp acc =
      (match inp with
       | [] => .error (.syntaxErr "Unclosed list: missing closing parenthesis" [])
       | c :: rest =>
         if c = ')' then .ok (.list acc, rest)
         else
           match parseExpr fuel (c :: rest) with
           | .error e => .error e
           | .ok (e, r) => parseListLoop fuel (skipWhitespace r) (acc ++ [e])) := rfl

/-- Unfolding: parseAllLoop with no fuel. -/
theorem parseAllLoop_zero (inp : List Char) (acc : List SExpr) :
    parseAllLoop 0 inp acc = .error .outOfFuel := rfl

/-- Unfolding: one step of parseAllLoop. -/
theorem parseAllLoop_succ (fuel : Nat) (inp : List Char) (acc : List SExpr) :
    parseAllLoop (fuel + 1) inp acc =
      (match inp with
       | [] => .ok acc
       | c :: rest =>
         match parseExpr fuel (c :: rest) with
         | .ok (e, r) => parseAllLoop fuel (skipWhitespace r) (acc ++ [e])
         | .error .outOfFuel => .error .outOfFuel
         | .error (.syntaxErr m r) =>
           match skipWhitespace r with
           | [] => .ok acc
           | _ => .error (.syntaxErr m r)) := rfl

end SExprParser

namespace SExprParser

/-- skipWsAux never lengthens the input. -/
theorem skipWsAux_length : ∀ (l : List Char) (b : Bool), (skipWsAux b l).length ≤ l.length := by
  intro l
  induction l with
  | nil => intro b; cases b <;> simp [skipWsAux]
  | cons c rest ih =>
    intro b
    cases b with
    | true =>
      by_cases h : c = '\n' <;> simp only [skipWsAux, h, if_pos, if_neg, ite_true, ite_false] <;>
        first
        | (calc (skipWsAux false rest).length ≤ rest.length := ih false
             _ ≤ (c :: rest).length := by simp)
        | (calc (skipWsAux true rest).length ≤ rest.length := ih true
             _ ≤ (c :: rest).length := by simp)
    | false =>
      by_cases hw : isWs c = true
      · simp only [skipWsAux, hw, ite_true]
        calc (skipWsAux false rest).length ≤ rest.length := ih false
          _ ≤ (c :: rest).length := by simp
      · by_cases hs : c = ';'
        · simp only [skipWsAux, hw, hs, ite_true, ite_false, Bool.false_eq_true]
          calc (skipWsAux true rest).length ≤ rest.length := ih true
            _ ≤ (c :: rest).length := by simp
        · simp [skipWsAux, hw, hs]

/-- skipWhitespace never lengthens the input. -/
theorem skipWhitespace_length (l : List Char) : (skipWhitespace l).length ≤ l.length :=
  skipWsAux_length l false

/-- skipWhitespace fixes an input whose head is neither whitespace nor a
comment start. -/
theorem skipWhitespace_fix (c : Char) (l : List Char) (hw : isWs c = false)
    (hs : ¬c = ';') : skipWhitespace (c :: l) = c :: l := by
  simp [skipWhitespace, skipWsAux, hw, hs]

/-- The output of skipWsAux is empty or starts with a character that is
neither whitespace nor a comment start. -/
theorem skipWsAux_shape : ∀ (l : List Char) (b : Bool),
    skipWsAux b l = [] ∨
      ∃ c r, skipWsAux b l = c :: r ∧ isWs c = false ∧ ¬c = ';' := by
  intro l
  induction l with
  | nil => intro b; cases b <;> simp [skipWsAux]
  | cons c rest ih =>
    intro b
    cases b with
    | true =>
      by_cases h : c = '\n' <;> simp only [skipWsAux, h, ite_true, ite_false] <;>
        first
        | exact ih false
        | exact ih true
    | false =>
      by_cases hw : isWs c = true
      · simp only [skipWsAux, hw, ite_true]; exact ih false
      · by_cases hs : c = ';'
        · simp only [skipWsAux, hw, hs, ite_true, ite_false, Bool.false_eq_true]
          exact ih true
        · refine Or.inr ⟨c, rest, ?_, by simpa using hw, hs⟩
          simp [skipWsAux, hw, hs]

/-- The output of skipWhitespace is empty or starts with a character that is
neither whitespace nor a comment start. -/
theorem skipWhitespace_shape (l : List Char) :
    skipWhitespace l = [] ∨
      ∃ c r, skipWhitespace l = c :: r ∧ isWs c = false ∧ ¬c = ';' :=
  skipWsAux_shape l false

/-- dropWhile never lengthens a list. -/
theorem length_dropWhile (p : Char → Bool) : ∀ l : List Char,
    (l.dropWhile p).length ≤ l.length := by
  intro l
  induction l with
  | nil => simp [List.dropWhile]
  | cons c rest ih =>
    by_cases h : p c = true <;> (simp [List.dropWhile, h]; try omega)

/-- A successful parseStringLoop strictly consumes input (at least the closing
quote). -/
theorem parseStringLoop_length : ∀ (inp : List Char) (esc : Bool) (acc : List Char)
    (s : String) (r : List Char), parseStringLoop inp esc acc = .ok (s, r) →
    r.length < inp.length := by
  intro inp
  induction inp with
  | nil => intro esc acc s r h; simp [parseStringLoop] at h
  | cons c rest ih =>
    intro esc acc s r h
    cases esc with
    | true =>
      simp only [parseStringLoop] at h
      have := ih false _ s r h
      simp; omega
    | false =>
      simp only [parseStringLoop] at h
      by_cases hb : c = '\\'
      · rw [if_pos hb] at h
        have := ih true acc s r h
        simp; omega
      · rw [if_neg hb] at h
        by_cases hq : c = '"'
        · rw [if_pos hq] at h
          simp at h
          rw [← h.2]
          simp
        · rw [if_neg hq] at h
          have := ih false _ s r h
          simp; omega

/-- A successful parseQuotedAtomLoop strictly consumes input (at least the
closing bar). -/
theorem parseQuotedAtomLoop_length : ∀ (inp : List Char) (acc : List Char)
    (s : String) (r : List Char), parseQuotedAtomLoop inp acc = .ok (s, r) →
    r.length < inp.length := by
  intro inp
  induction inp with
  | nil => intro acc s r h; simp [parseQuotedAtomLoop] at h
  | cons c rest ih =>
    intro acc s r h
    simp only [parseQuotedAtomLoop] at h
    by_cases hb : c = '|'
    · rw [if_pos hb] at h
      simp at h
      rw [← h.2]
      simp
    · rw [if_neg hb] at h
      have := ih _ s r h
      simp; omega

/-- A successful parseAtom on an input whose head is neither whitespace, a
comment start, nor a parenthesis strictly consumes input. -/
theorem parseAtom_progress (c : Char) (rest : List Char) (s : String) (r : List Char)
    (hw : isWs c = false) (hs : ¬c = ';') (hop : ¬c = '(') (hcl : ¬c = ')')
    (h : parseAtom (c :: rest) = .ok (s, r)) : r.length < (c :: rest).length := by
  unfold parseAtom at h
  rw [skipWhitespace_fix c rest hw hs] at h
  simp only [] at h
  by_cases hq : c = '"'
  · rw [if_pos hq] at h
    subst hq
    unfold parseString at h
    have := parseStringLoop_length rest false [] s r h
    simp; omega
  · rw [if_neg hq] at h
    by_cases hbar : c = '|'
    · rw [if_pos hbar] at h
      subst hbar
      unfold parseQuotedAtom at h
      have := parseQuotedAtomLoop_length rest [] s r h
      simp; omega
    · rw [if_neg hbar] at h
      simp only [Except.ok.injEq, Prod.mk.injEq] at h
      have hdelim : isDelim c = false := by
        simp [isDelim, hw, hop, hcl]
      have hr : r = rest.dropWhile (fun d => !isDelim d) := by
        rw [← h.2]
        simp [List.dropWhile, hdelim]
      rw [hr]
      have := length_dropWhile (fun d => !isDelim d) rest
      simp; omega

/-- parseAtom never reports fuel exhaustion. -/
theorem parseAtom_no_fuel_err : ∀ inp : List Char, parseAtom inp ≠ .error .outOfFuel := by
  have hstr : ∀ (l : List Char) (esc : Bool) (acc : List Char),
      parseStringLoop l esc acc ≠ .error .outOfFuel := by
    intro l
    induction l with
    | nil => intro esc acc; simp [parseStringLoop]
    | cons c rest ih =>
      intro esc acc
      cases esc with
      | true => simp only [parseStringLoop]; exact ih false _
      | false =>
        simp only [parseStringLoop]
        by_cases hb : c = '\\'
        · rw [if_pos hb]; exact ih true acc
        · rw [if_neg hb]
          by_cases hq : c = '"'
          · rw [if_pos hq]; simp
          · rw [if_neg hq]; exact ih false _
  have hqa : ∀ (l : List Char) (acc : List Char),
      parseQuotedAtomLoop l acc ≠ .error .outOfFuel := by
    intro l
    induction l with
    | nil => intro acc; simp [parseQuotedAtomLoop]
    | cons c rest ih =>
      intro acc
      simp only [parseQuotedAtomLoop]
      by_cases hb : c = '|'
      · rw [if_pos hb]; simp
      · rw [if_neg hb]; exact ih _
  intro inp
  unfold parseAtom
  cases hsw : skipWhitespace inp with
  | nil => simp
  | cons c rest =>
    simp only []
    by_cases hq : c = '"'
    · rw [if_pos hq]
      unfold parseString
      by_cases hc : c = '"'
      · subst hc; exact hstr rest false []
      · exact absurd hq hc
    · rw [if_neg hq]
      by_cases hbar : c = '|'
      · rw [if_pos hbar]
        unfold parseQuotedAtom
        subst hbar
        exact hqa rest []
      · rw [if_neg hbar]
        simp

end SExprParser

namespace SExprParser

/-- Progress: every successful parseExpr or parseListLoop call strictly
consumes input (the returned remainder is strictly shorter). -/
theorem parser_progress : ∀ fuel : Nat,
    (∀ inp e r, parseExpr fuel inp = .ok (e, r) → r.length < inp.length) ∧
    (∀ inp acc e r, parseListLoop fuel inp acc = .ok (e, r) → r.length < inp.length) := by
  intro fuel
  induction fuel with
  | zero =>
    refine ⟨fun inp e r h => absurd h (by rw [parseExpr_zero]; simp),
      fun inp acc e r h => absurd h (by rw [parseListLoop_zero]; simp)⟩
  | succ f ih =>
    obtain ⟨ihE, ihL⟩ := ih
    constructor
    · intro inp e r h
      rw [parseExpr_succ] at h
      rcases skipWhitespace_shape inp with hnil | ⟨c, rest, hsw, hcw, hcs⟩
      · rw [hnil] at h; simp at h
      · rw [hsw] at h
        simp only [] at h
        have hswlen : (c :: rest).length ≤ inp.length := by
          rw [← hsw]; exact skipWhitespace_length inp
        have hrl : (c :: rest).length = rest.length + 1 := rfl
        by_cases hop : c = '('
        · rw [if_pos hop] at h
          have h1 := ihL (skipWhitespace rest) [] e r h
          have h2 := skipWhitespace_length rest
          omega
        · rw [if_neg hop] at h
          by_cases hcl : c = ')'
          · rw [if_pos hcl] at h; simp at h
          · rw [if_neg hcl] at h
            cases hpa : parseAtom (c :: rest) with
            | error err => rw [hpa] at h; simp at h
            | ok q =>
              rw [hpa] at h
              obtain ⟨s1, r1⟩ := q
              simp at h
              obtain ⟨_, hr⟩ := h
              subst hr
              have h3 := parseAtom_progress c rest s1 r1 hcw hcs hop hcl hpa
              omega
    · intro inp acc e r h
      rw [parseListLoop_succ] at h
      cases inp with
      | nil => simp at h
      | cons c rest =>
        simp only [] at h
        have hrl : (c :: rest).length = rest.length + 1 := rfl
        by_cases hcl : c = ')'
        · rw [if_pos hcl] at h
          simp at h
          obtain ⟨_, hr⟩ := h
          subst hr
          omega
        · rw [if_neg hcl] at h
          cases hpe : parseExpr f (c :: rest) with
          | error err => rw [hpe] at h; simp at h
          | ok q =>
            rw [hpe] at h
            obtain ⟨e1, r1⟩ := q
            simp only [] at h
            have h1 := ihE (c :: rest) e1 r1 hpe
            have h2 := ihL (skipWhitespace r1) (acc ++ [e1]) e r h
            have h3 := skipWhitespace_length r1
            omega

/-- Fuel adequacy: with fuel at least twice the remaining input length plus a
constant, none of the parser loops can run out of fuel. -/
theorem parser_adequacy : ∀ fuel : Nat,
    (∀ inp, 2 * inp.length + 1 ≤ fuel → parseExpr fuel inp ≠ .error .outOfFuel) ∧
    (∀ inp acc, 2 * inp.length + 2 ≤ fuel → parseListLoop fuel inp acc ≠ .error .outOfFuel) ∧
    (∀ inp acc, 2 * inp.length + 2 ≤ fuel → parseAllLoop fuel inp acc ≠ .error .outOfFuel) := by
  intro fuel
  induction fuel with
  | zero =>
    exact ⟨fun inp hf => absurd hf (by omega), fun inp acc hf => absurd hf (by omega),
      fun inp acc hf => absurd hf (by omega)⟩
  | succ f ih =>
    obtain ⟨ihE, ihL, ihA⟩ := ih
    have hEg : ∀ inp, 2 * inp.length + 1 ≤ f + 1 → parseExpr (f + 1) inp ≠ .error .outOfFuel := by
      intro inp hf
      rw [parseExpr_succ]
      rcases skipWhitespace_shape inp with hnil | ⟨c, rest, hsw, hcw, hcs⟩
      · rw [hnil]; simp
      · rw [hsw]
        simp only []
        have hswlen : (c :: rest).length ≤ inp.length := by
          rw [← hsw]; exact skipWhitespace_length inp
        have hrl : (c :: rest).length = rest.length + 1 := rfl
        by_cases hop : c = '('
        · rw [if_pos hop]
          have h2 := skipWhitespace_length rest
          exact ihL (skipWhitespace rest) [] (by omega)
        · rw [if_neg hop]
          by_cases hcl : c = ')'
          · rw [if_pos hcl]; simp
          · rw [if_neg hcl]
            cases hpa : parseAtom (c :: rest) with
            | error err =>
              intro hcontra
              simp only [Except.error.injEq] at hcontra
              exact parseAtom_no_fuel_err (c :: rest) (by rw [hpa, hcontra])
            | ok q => obtain ⟨s1, r1⟩ := q; simp
    refine ⟨hEg, ?_, ?_⟩
    · intro inp acc hf
      rw [parseListLoop_succ]
      cases inp with
      | nil => simp
      | cons c rest =>
        simp only []
        have hrl : (c :: rest).length = rest.length + 1 := rfl
        by_cases hcl : c = ')'
        · rw [if_pos hcl]; simp
        · rw [if_neg hcl]
          cases hpe : parseExpr f (c :: rest) with
          | error err =>
            have hne := ihE (c :: rest) (by omega)
            intro hcontra
            simp only [Except.error.injEq] at hcontra
            exact hne (by rw [hpe, hcontra])
          | ok q =>
            obtain ⟨e1, r1⟩ := q
            simp only []
            have hprog := (parser_progress f).1 (c :: rest) e1 r1 hpe
            have hsl := skipWhitespace_length r1
            exact ihL (skipWhitespace r1) (acc ++ [e1]) (by omega)
    · intro inp acc hf
      rw [parseAllLoop_succ]
      cases inp with
      | nil => simp
      | cons c rest =>
        simp only []
        have hrl : (c :: rest).length = rest.length + 1 := rfl
        cases hpe : parseExpr f (c :: rest) with
        | error err =>
          cases err with
          | outOfFuel => exact absurd hpe (ihE (c :: rest) (by omega))
          | syntaxErr m rr =>
            simp only []
            cases hsw2 : skipWhitespace rr with
            | nil => simp
            | cons d ds => simp
        | ok q =>
          obtain ⟨e1, r1⟩ := q
          simp only []
          have hprog := (parser_progress f).1 (c :: rest) e1 r1 hpe
          have hsl := skipWhitespace_length r1
          exact ihA (skipWhitespace r1) (acc ++ [e1]) (by omega)

/-- parseAllLoop reports a syntax error only when the remaining input at the
failed parse's throw site is nonempty after skipping whitespace and comments. -/
theorem parseAllLoop_err_shape : ∀ (fuel : Nat) (inp : List Char) (acc : List SExpr)
    (m : String) (r : List Char), parseAllLoop fuel inp acc = .error (.syntaxErr m r) →
    ¬skipWhitespace r = [] := by
  intro fuel
  induction fuel with
  | zero =>
    intro inp acc m r h
    rw [parseAllLoop_zero] at h
    simp at h
  | succ f ih =>
    intro inp acc m r h
    rw [parseAllLoop_succ] at h
    cases inp with
    | nil => simp at h
    | cons c rest =>
      simp only [] at h
      cases hpe : parseExpr f (c :: rest) with
      | ok q =>
        rw [hpe] at h
        obtain ⟨e1, r1⟩ := q
        simp only [] at h
        exact ih (skipWhitespace r1) (acc ++ [e1]) m r h
      | error err =>
        rw [hpe] at h
        cases err with
        | outOfFuel => simp at h
        | syntaxErr m2 r2 =>
          simp only [] at h
          cases hsw2 : skipWhitespace r2 with
          | nil => rw [hsw2] at h; simp at h
          | cons d ds =>
            rw [hsw2] at h
            simp at h
            obtain ⟨_, hr⟩ := h
            rw [← hr, hsw2]
            simp

end SExprParser

/-- An all-whitespace-and-comments input is skipped entirely. -/
theorem skipWsAux_of_wsCommentOnly : ∀ (l : List Char) (b : Bool),
    wsCommentOnlyAux b l = true → SExprParser.skipWsAux b l = [] := by
  intro l
  induction l with
  | nil => intro b _; cases b <;> rfl
  | cons c rest ih =>
    intro b hb
    cases b with
    | true =>
      by_cases h : c = '\n' <;>
        simp only [wsCommentOnlyAux, SExprParser.skipWsAux, h, ite_true, ite_false] at hb ⊢ <;>
        first
        | exact ih false hb
        | exact ih true hb
    | false =>
      by_cases hw : SExprParser.isWs c = true
      · simp only [wsCommentOnlyAux, SExprParser.skipWsAux, hw, ite_true] at hb ⊢
        exact ih false hb
      · by_cases hs : c = ';'
        · simp only [wsCommentOnlyAux, SExprParser.skipWsAux, hw, hs, ite_true, ite_false,
            Bool.false_eq_true] at hb ⊢
          exact ih true hb
        · simp [wsCommentOnlyAux, hw, hs] at hb

namespace SExprToTree

/-- Unfolding: convertAux with no fuel. -/
theorem convertAux_zero (e : SExpr) (s : ConvState) :
    convertAux 0 e s = .error "out of fuel" := rfl

/-- Unfolding: convertAux on an atom. -/
theorem convertAux_atom (fuel : Nat) (a : String) (s : ConvState) :
    convertAux (fuel + 1) (.atom a) s =
      (match mapGet s.leafMap a with
       | some nid => .ok (nid, s)
       | none => .ok (alloc s ⟨some a, []⟩)) := rfl

/-- Unfolding: convertAux on the empty list. -/
theorem convertAux_nil (fuel : Nat) (s : ConvState) :
    convertAux (fuel + 1) (.list []) s = .ok (alloc s ⟨some "()", []⟩) := rfl

/-- Unfolding: convertAux on a 3-element list with a string head (the shape
that is a binding form exactly when the head is let or let-proof). -/
theorem convertAux_three_atom (fuel : Nat) (n : String) (b c : SExpr) (s : ConvState) :
    convertAux (fuel + 1) (.list [.atom n, b, c]) s =
      (if n = "let" || n = "let-proof" then
        match b with
        | .list bs => convertLetAux fuel bs c s
        | .atom _ => .error "Expected list of bindings for let/let-proof"
      else
        match convertChildrenAux fuel [b, c] s with
        | .error e => .error e
        | .ok (cids, s1) => .ok (alloc s1 ⟨some n, cids⟩)) := rfl

/-- Unfolding: convertAux on a list whose head is itself a list. -/
theorem convertAux_list_head (fuel : Nat) (l rest : List SExpr) (s : ConvState) :
    convertAux (fuel + 1) (.list (.list l :: rest)) s =
      (match convertChildrenAux fuel rest s with
       | .error e => .error e
       | .ok (cids, s1) => .ok (alloc s1 ⟨some (nodeName (.list l)), cids⟩)) := rfl

/-- Unfolding: convertAux on a 1-element list with a string head. -/
theorem convertAux_one_atom (fuel : Nat) (n : String) (s : ConvState) :
    convertAux (fuel + 1) (.list [.atom n]) s =
      (match convertChildrenAux fuel [] s with
       | .error e => .error e
       | .ok (cids, s1) => .ok (alloc s1 ⟨some n, cids⟩)) := rfl

/-- Unfolding: convertAux on a 2-element list with a string head. -/
theorem convertAux_two_atom (fuel : Nat) (n : String) (f2 : SExpr) (s : ConvState) :
    convertAux (fuel + 1) (.list [.atom n, f2]) s =
      (match convertChildrenAux fuel [f2] s with
       | .error e => .error e
       | .ok (cids, s1) => .ok (alloc s1 ⟨some n, cids⟩)) := rfl

/-- Unfolding: convertAux on a list of four or more elements with a string
head. -/
theorem convertAux_four_atom (fuel : Nat) (n : String) (f2 f3 f4 : SExpr)
    (rest : List SExpr) (s : ConvState) :
    convertAux (fuel + 1) (.list (.atom n :: f2 :: f3 :: f4 :: rest)) s =
      (match convertChildrenAux fuel (f2 :: f3 :: f4 :: rest) s with
       | .error e => .error e
       | .ok (cids, s1) => .ok (alloc s1 ⟨some n, cids⟩)) := rfl

/-- Unfolding: convertLetAux with no fuel. -/
theorem convertLetAux_zero (bs : List SExpr) (body : SExpr) (s : ConvState) :
    convertLetAux 0 bs body s = .error "out of fuel" := rfl

/-- Unfolding: convertLetAux with no bindings left converts the body. -/
theorem convertLetAux_nil (fuel : Nat) (body : SExpr) (s : ConvState) :
    convertLetAux (fuel + 1) [] body s = convertAux fuel body s := rfl

/-- Unfolding: convertLetAux on a well-formed binding: convert the value, wrap
it in a fresh node named after the binding, install it (overwriting), continue. -/
theorem convertLetAux_cons (fuel : Nat) (name : String) (value : SExpr) (bs : List SExpr)
    (body : SExpr) (s : ConvState) :
    convertLetAux (fuel + 1) (.list [.atom name, value] :: bs) body s =
      (match convertAux fuel value s with
       | .error e => .error e
       | .ok (vid, s1) =>
         convertLetAux fuel bs body
           ⟨s1.heap ++ [⟨some name, [vid]⟩], mapSet s1.leafMap name s1.heap.length⟩) := rfl

/-- Unfolding: a 2-element binding whose name is not a string is fatal. -/
theorem convertLetAux_cons_badname (fuel : Nat) (l : List SExpr) (value : SExpr)
    (bs : List SExpr) (body : SExpr) (s : ConvState) :
    convertLetAux (fuel + 1) (.list [.list l, value] :: bs) body s =
      .error "Expected string for binding name" := rfl

/-- Unfolding: an atom in binding position is fatal. -/
theorem convertLetAux_cons_atom (fuel : Nat) (x : String) (bs : List SExpr)
    (body : SExpr) (s : ConvState) :
    convertLetAux (fuel + 1) (.atom x :: bs) body s = .error "Expected tuple for binding" := rfl

/-- Unfolding: an empty-list binding is fatal. -/
theorem convertLetAux_cons_nil (fuel : Nat) (bs : List SExpr) (body : SExpr) (s : ConvState) :
    convertLetAux (fuel + 1) (.list [] :: bs) body s = .error "Expected tuple for binding" := rfl

/-- Unfolding: a 1-element binding is fatal (string case). -/
theorem convertLetAux_cons_one_atom (fuel : Nat) (x : String) (bs : List SExpr) (body : SExpr)
    (s : ConvState) :
    convertLetAux (fuel + 1) (.list [.atom x] :: bs) body s =
      .error "Expected tuple for binding" := rfl

/-- Unfolding: a 1-element binding is fatal (list case). -/
theorem convertLetAux_cons_one_list (fuel : Nat) (l : List SExpr) (bs : List SExpr)
    (body : SExpr) (s : ConvState) :
    convertLetAux (fuel + 1) (.list [.list l] :: bs) body s =
      .error "Expected tuple for binding" := rfl

/-- Unfolding: a binding of three or more elements is fatal (string head). -/
theorem convertLetAux_cons_long_atom (fuel : Nat) (x : String) (e2 e3 : SExpr) (tl bs : List SExpr)
    (body : SExpr) (s : ConvState) :
    convertLetAux (fuel + 1) (.list (.atom x :: e2 :: e3 :: tl) :: bs) body s =
      .error "Expected tuple for binding" := rfl

/-- Unfolding: a binding of three or more elements is fatal (list head). -/
theorem convertLetAux_cons_long_list (fuel : Nat) (l : List SExpr) (e2 e3 : SExpr)
    (tl bs : List SExpr) (body : SExpr) (s : ConvState) :
    convertLetAux (fuel + 1) (.list (.list l :: e2 :: e3 :: tl) :: bs) body s =
      .error "Expected tuple for binding" := rfl

/-- Unfolding: convertChildrenAux with no fuel. -/
theorem convertChildrenAux_zero (es : List SExpr) (s : ConvState) :
    convertChildrenAux 0 es s = .error "out of fuel" := rfl

/-- Unfolding: convertChildrenAux on no elements. -/
theorem convertChildrenAux_nil (fuel : Nat) (s : ConvState) :
    convertChildrenAux (fuel + 1) [] s = .ok ([], s) := rfl

/-- Unfolding: convertChildrenAux on a single remaining string element. -/
theorem convertChildrenAux_one_atom (fuel : Nat) (a : String) (s : ConvState) :
    convertChildrenAux (fuel + 1) [.atom a] s =
      (match convertAux fuel (.atom a) s with
       | .error err => .error err
       | .ok (cid, s1) => .ok ([cid], s1)) := rfl

/-- Unfolding: convertChildrenAux on a single remaining list element. -/
theorem convertChildrenAux_one_list (fuel : Nat) (l : List SExpr) (s : ConvState) :
    convertChildrenAux (fuel + 1) [.list l] s =
      (match convertAux fuel (.list l) s with
       | .error err => .error err
       | .ok (cid, s1) => .ok ([cid], s1)) := rfl

/-- Unfolding: convertChildrenAux on a string element with a successor: the
keyword/value pairing applies when the string is a keyword and the next element
is not. -/
theorem convertChildrenAux_atom_cons (fuel : Nat) (k : String) (v : SExpr)
    (rest : List SExpr) (s : ConvState) :
    convertChildrenAux (fuel + 1) (.atom k :: v :: rest) s =
      (if isKeywordStr k && !isKeyword v then
        match convertToArrayAux fuel v s with
        | .error err => .error err
        | .ok (cids, s1) =>
          match convertChildrenAux fuel rest ⟨s1.heap ++ [⟨some k, cids⟩], s1.leafMap⟩ with
          | .error err => .error err
          | .ok (more, s3) => .ok (s1.heap.length :: more, s3)
      else
        match convertAux fuel (.atom k) s with
        | .error err => .error err
        | .ok (cid, s1) =>
          match convertChildrenAux fuel (v :: rest) s1 with
          | .error err => .error err
          | .ok (more, s2) => .ok (cid :: more, s2)) := rfl

/-- Unfolding: convertChildrenAux on a list element with a successor. -/
theorem convertChildrenAux_list_cons (fuel : Nat) (l : List SExpr) (v : SExpr)
    (rest : List SExpr) (s : ConvState) :
    convertChildrenAux (fuel + 1) (.list l :: v :: rest) s =
      (match convertAux fuel (.list l) s with
       | .error err => .error err
       | .ok (cid, s1) =>
         match convertChildrenAux fuel (v :: rest) s1 with
         | .error err => .error err
         | .ok (more, s2) => .ok (cid :: more, s2)) := rfl

/-- Unfolding: convertToArrayAux with no fuel. -/
theorem convertToArrayAux_zero (e : SExpr) (s : ConvState) :
    convertToArrayAux 0 e s = .error "out of fuel" := rfl

/-- Unfolding: convertToArray on a string allocates one fresh leaf,
unconditionally: the leafMap is never consulted. -/
theorem convertToArrayAux_atom (fuel : Nat) (a : String) (s : ConvState) :
    convertToArrayAux (fuel + 1) (.atom a) s =
      .ok ([s.heap.length], ⟨s.heap ++ [⟨some a, []⟩], s.leafMap⟩) := rfl

/-- Unfolding: convertToArray on a list converts each element. -/
theorem convertToArrayAux_list (fuel : Nat) (es : List SExpr) (s : ConvState) :
    convertToArrayAux (fuel + 1) (.list es) s = convertListAux fuel es s := rfl

/-- Unfolding: convertListAux with no fuel. -/
theorem convertListAux_zero (es : List SExpr) (s : ConvState) :
    convertListAux 0 es s = .error "out of fuel" := rfl

/-- Unfolding: convertListAux on no elements. -/
theorem convertListAux_nil (fuel : Nat) (s : ConvState) :
    convertListAux (fuel + 1) [] s = .ok ([], s) := rfl

/-- Unfolding: convertListAux converts the head, then the tail. -/
theorem convertListAux_cons (fuel : Nat) (e : SExpr) (es : List SExpr) (s : ConvState) :
    convertListAux (fuel + 1) (e :: es) s =
      (match convertAux fuel e s with
       | .error err => .error err
       | .ok (nid, s1) =>
         match convertListAux fuel es s1 with
         | .error err => .error err
         | .ok (nids, s2) => .ok (nid :: nids, s2)) := rfl

/-- mapSet stores the value under the key, overwriting any prior binding. -/
theorem mapGet_mapSet_self (m : List (String × Nat)) (k : String) (v : Nat) :
    mapGet (mapSet m k v) k = some v := by
  induction m with
  | nil => simp [mapGet, mapSet]
  | cons p rest ih =>
    by_cases h : p.1 = k <;> simp [mapGet, mapSet, h, ih]

/-- mapSet leaves other keys untouched. -/
theorem mapGet_mapSet_ne (m : List (String × Nat)) (k key : String) (v : Nat)
    (h : ¬k = key) : mapGet (mapSet m k v) key = mapGet m key := by
  induction m with
  | nil => simp [mapGet, mapSet, h]
  | cons p rest ih =>
    by_cases hp : p.1 = k
    · simp [mapGet, mapSet, hp, h]
    · have h2 : ¬key = k := fun hh => h hh.symm
      by_cases hq : p.1 = key <;> simp [mapGet, mapSet, hp, hq, h2, ih]

/-- keysSub is reflexive. -/
theorem keysSub_refl (m : List (String × Nat)) : keysSub m m :=
  fun _ v h => ⟨v, h⟩

/-- keysSub is transitive. -/
theorem keysSub_trans {m1 m2 m3 : List (String × Nat)}
    (h1 : keysSub m1 m2) (h2 : keysSub m2 m3) : keysSub m1 m3 := by
  intro k v h
  obtain ⟨w, hw⟩ := h1 k v h
  exact h2 k w hw

/-- mapSet never removes a key. -/
theorem keysSub_mapSet (m : List (String × Nat)) (k : String) (v : Nat) :
    keysSub m (mapSet m k v) := by
  intro key w h
  by_cases hk : k = key
  · subst hk; exact ⟨v, mapGet_mapSet_self m k v⟩
  · exact ⟨w, by rw [mapGet_mapSet_ne m k key v hk]; exact h⟩

/-- Reading an offset past an existing heap prefix lands in the extension. -/
theorem heapGet_append (h l : List TreeNode) (m : List (String × Nat)) (i : Nat) :
    heapGet ⟨h ++ l, m⟩ (h.length + i) = l[i]? := by
  simp [heapGet, List.getElem?_append_right]

/-- Full symbolic trace of letExample's conversion: only the absence of a "1"
binding matters (a prior "x" binding would be overwritten anyway). -/
theorem convertAux_letExample (fuel : Nat) (s : ConvState)
    (h1 : mapGet s.leafMap "1" = none) :
    convertAux (fuel + 8) letExample s = .ok (s.heap.length + 2, letExampleFinal s) := by
  simp [letExample, letExampleFinal, convertAux, convertLetAux, convertChildrenAux, alloc,
    h1, isKeywordStr, isKeyword, mapGet_mapSet_self]

/-- convert letExample, with the wrapper's fuel. -/
theorem convert_letExample (s : ConvState) (h1 : mapGet s.leafMap "1" = none) :
    convert letExample s = .ok (s.heap.length + 2, letExampleFinal s) := by
  show convertAux (22 + 8) letExample s = _
  exact convertAux_letExample 22 s h1

/-- Full symbolic trace of kwExample's conversion against any state with no
bindings for "a" and "b" (the keyword values v is expanded as a fresh leaf with
no lookup, so a binding of "v" would not matter). -/
theorem convertAux_kwExample (fuel : Nat) (s : ConvState)
    (ha : mapGet s.leafMap "a" = none) (hb : mapGet s.leafMap "b" = none) :
    convertAux (fuel + 8) kwExample s = .ok (s.heap.length + 5, kwExampleFinal s) := by
  simp [kwExample, kwExampleFinal, convertAux, convertChildrenAux, convertToArrayAux,
    convertListAux, alloc, ha, hb, isKeywordStr, isKeyword, nodeName]

/-- convert kwExample, with the wrapper's fuel. -/
theorem convert_kwExample (s : ConvState)
    (ha : mapGet s.leafMap "a" = none) (hb : mapGet s.leafMap "b" = none) :
    convert kwExample s = .ok (s.heap.length + 5, kwExampleFinal s) := by
  show convertAux (16 + 8) kwExample s = _
  exact convertAux_kwExample 16 s ha hb

end SExprToTree

/-- Every S-expression has positive size. -/
theorem SExpr.size_pos (e : SExpr) : 1 ≤ e.size := by
  cases e <;> simp [SExpr.size]

namespace SExprToTree

/-- Conversions only ever add or overwrite leafMap entries, never delete:
every key present before any of the converter's functions runs is still
present in the resulting state. -/
theorem convert_keysSub_all : ∀ fuel : Nat,
    (∀ e s r, convertAux fuel e s = .ok r → keysSub s.leafMap r.2.leafMap) ∧
    (∀ bs body s r, convertLetAux fuel bs body s = .ok r → keysSub s.leafMap r.2.leafMap) ∧
    (∀ es s r, convertChildrenAux fuel es s = .ok r → keysSub s.leafMap r.2.leafMap) ∧
    (∀ e s r, convertToArrayAux fuel e s = .ok r → keysSub s.leafMap r.2.leafMap) ∧
    (∀ es s r, convertListAux fuel es s = .ok r → keysSub s.leafMap r.2.leafMap) := by
  intro fuel
  induction fuel with
  | zero =>
    refine ⟨fun e s r h => absurd h (by rw [convertAux_zero]; simp),
      fun bs body s r h => absurd h (by rw [convertLetAux_zero]; simp),
      fun es s r h => absurd h (by rw [convertChildrenAux_zero]; simp),
      fun e s r h => absurd h (by rw [convertToArrayAux_zero]; simp),
      fun es s r h => absurd h (by rw [convertListAux_zero]; simp)⟩
  | succ f ih =>
    obtain ⟨ihE, ihL, ihC, ihA, ihX⟩ := ih
    have hE : ∀ e s r, convertAux (f + 1) e s = .ok r → keysSub s.leafMap r.2.leafMap := by
      intro e s r h
      cases e with
      | atom a =>
        rw [convertAux_atom] at h
        cases hm : mapGet s.leafMap a with
        | some nid => rw [hm] at h; simp at h; subst h; exact keysSub_refl _
        | none => rw [hm] at h; simp [alloc] at h; subst h; exact keysSub_refl _
      | list es =>
        cases es with
        | nil =>
          rw [convertAux_nil] at h; simp [alloc] at h; subst h; exact keysSub_refl _
        | cons first rest =>
          have general : ∀ (nm : String) (l : List SExpr) (r2 : Nat × ConvState),
              ((match convertChildrenAux f l s with
                | .error e => .error e
                | .ok (cids, s1) =>
                  .ok (alloc s1 ⟨some nm, cids⟩) : Except String (Nat × ConvState))) = .ok r2 →
              keysSub s.leafMap r2.2.leafMap := by
            intro nm l r2 h2
            cases hc : convertChildrenAux f l s with
            | error e => rw [hc] at h2; simp at h2
            | ok q =>
              rw [hc] at h2
              obtain ⟨cids, s1⟩ := q
              simp [alloc] at h2
              subst h2
              exact ihC l s (cids, s1) hc
          cases first with
          | list l =>
            rw [convertAux_list_head] at h
            exact general (nodeName (.list l)) rest r h
          | atom n =>
            cases rest with
            | nil => rw [convertAux_one_atom] at h; exact general n [] r h
            | cons f2 rest2 =>
              cases rest2 with
              | nil => rw [convertAux_two_atom] at h; exact general n [f2] r h
              | cons f3 rest3 =>
                cases rest3 with
                | cons f4 rest4 =>
                  rw [convertAux_four_atom] at h
                  exact general n (f2 :: f3 :: f4 :: rest4) r h
                | nil =>
                  rw [convertAux_three_atom] at h
                  split at h
                  · cases f2 with
                    | atom b => simp at h
                    | list bs => exact ihL bs f3 s r h
                  · exact general n [f2, f3] r h
    refine ⟨hE, ?_, ?_, ?_, ?_⟩
    · intro bs body s r h
      cases bs with
      | nil => rw [convertLetAux_nil] at h; exact ihE body s r h
      | cons b bs2 =>
        cases b with
        | atom x => rw [convertLetAux_cons_atom] at h; simp at h
        | list bl =>
          cases bl with
          | nil => rw [convertLetAux_cons_nil] at h; simp at h
          | cons e1 tl1 =>
            cases tl1 with
            | nil =>
              cases e1 with
              | atom x => rw [convertLetAux_cons_one_atom] at h; simp at h
              | list l => rw [convertLetAux_cons_one_list] at h; simp at h
            | cons e2 tl2 =>
              cases tl2 with
              | cons e3 tl3 =>
                cases e1 with
                | atom x => rw [convertLetAux_cons_long_atom] at h; simp at h
                | list l => rw [convertLetAux_cons_long_list] at h; simp at h
              | nil =>
                cases e1 with
                | list l => rw [convertLetAux_cons_badname] at h; simp at h
                | atom name =>
                  rw [convertLetAux_cons] at h
                  cases hv : convertAux f e2 s with
                  | error err => rw [hv] at h; simp at h
                  | ok q =>
                    rw [hv] at h
                    obtain ⟨vid, s1⟩ := q
                    simp at h
                    have k1 : keysSub s.leafMap s1.leafMap := ihE e2 s (vid, s1) hv
                    have k2 : keysSub s1.leafMap (mapSet s1.leafMap name s1.heap.length) :=
                      keysSub_mapSet _ _ _
                    have k3 := ihL bs2 body
                      ⟨s1.heap ++ [⟨some name, [vid]⟩], mapSet s1.leafMap name s1.heap.length⟩ r h
                    exact keysSub_trans (keysSub_trans k1 k2) k3
    · intro es s r h
      cases es with
      | nil => rw [convertChildrenAux_nil] at h; simp at h; subst h; exact keysSub_refl _
      | cons e1 tl1 =>
        have normal : ∀ (e : SExpr) (tail : List SExpr) (r2 : List Nat × ConvState),
            ((match convertAux f e s with
              | .error err => .error err
              | .ok (cid, s1) =>
                match convertChildrenAux f tail s1 with
                | .error err => .error err
                | .ok (more, s2) =>
                  .ok (cid :: more, s2) : Except String (List Nat × ConvState))) = .ok r2 →
            keysSub s.leafMap r2.2.leafMap := by
          intro e tail r2 h2
          cases hv : convertAux f e s with
          | error err => rw [hv] at h2; simp at h2
          | ok q =>
            rw [hv] at h2
            obtain ⟨cid, s1⟩ := q
            simp only [] at h2
            cases hm : convertChildrenAux f tail s1 with
            | error err => rw [hm] at h2; simp at h2
            | ok q2 =>
              rw [hm] at h2
              obtain ⟨more, s2⟩ := q2
              simp at h2
              subst h2
              exact keysSub_trans (ihE e s (cid, s1) hv) (ihC tail s1 (more, s2) hm)
        cases tl1 with
        | nil =>
          cases e1 with
          | atom a =>
            rw [convertChildrenAux_one_atom] at h
            cases hv : convertAux f (.atom a) s with
            | error err => rw [hv] at h; simp at h
            | ok q =>
              rw [hv] at h
              obtain ⟨cid, s1⟩ := q
              simp at h
              subst h
              exact ihE (.atom a) s (cid, s1) hv
          | list l =>
            rw [convertChildrenAux_one_list] at h
            cases hv : convertAux f (.list l) s with
            | error err => rw [hv] at h; simp at h
            | ok q =>
              rw [hv] at h
              obtain ⟨cid, s1⟩ := q
              simp at h
              subst h
              exact ihE (.list l) s (cid, s1) hv
        | cons v rest =>
          cases e1 with
          | list l =>
            rw [convertChildrenAux_list_cons] at h
            exact normal (.list l) (v :: rest) r h
          | atom k =>
            rw [convertChildrenAux_atom_cons] at h
            split at h
            · cases ha : convertToArrayAux f v s with
              | error err => rw [ha] at h; simp at h
              | ok q =>
                rw [ha] at h
                obtain ⟨cids, s1⟩ := q
                simp only [] at h
                cases hm : convertChildrenAux f rest ⟨s1.heap ++ [⟨some k, cids⟩], s1.leafMap⟩ with
                | error err => rw [hm] at h; simp at h
                | ok q2 =>
                  rw [hm] at h
                  obtain ⟨more, s3⟩ := q2
                  simp at h
                  subst h
                  have k1 : keysSub s.leafMap s1.leafMap := ihA v s (cids, s1) ha
                  have k2 := ihC rest ⟨s1.heap ++ [⟨some k, cids⟩], s1.leafMap⟩ (more, s3) hm
                  exact keysSub_trans k1 k2
            · exact normal (.atom k) (v :: rest) r h
    · intro e s r h
      cases e with
      | atom a =>
        rw [convertToArrayAux_atom] at h; simp at h; subst h; exact keysSub_refl _
      | list es =>
        rw [convertToArrayAux_list] at h
        exact ihX es s r h
    · intro es s r h
      cases es with
      | nil => rw [convertListAux_nil] at h; simp at h; subst h; exact keysSub_refl _
      | cons e tl =>
        rw [convertListAux_cons] at h
        cases hv : convertAux f e s with
        | error err => rw [hv] at h; simp at h
        | ok q =>
          rw [hv] at h
          obtain ⟨nid, s1⟩ := q
          simp only [] at h
          cases hm : convertListAux f tl s1 with
          | error err => rw [hm] at h; simp at h
          | ok q2 =>
            rw [hm] at h
            obtain ⟨nids, s2⟩ := q2
            simp at h
            subst h
            exact keysSub_trans (ihE e s (nid, s1) hv) (ihX tl s1 (nids, s2) hm)

/-- Converting an expression with no let/let-proof subterm always succeeds
(given fuel at least three times its size) and leaves the leafMap exactly as
it was, across all of the converter's functions. -/
theorem convert_noLet_all : ∀ fuel : Nat,
    (∀ e s, SExpr.noLet e = true → 3 * e.size ≤ fuel →
       ∃ nid heap2, convertAux fuel e s = .ok (nid, ⟨heap2, s.leafMap⟩)) ∧
    (∀ es s, SExpr.noLetList es = true → 3 * SExpr.sizeList es + 1 ≤ fuel →
       ∃ cids heap2, convertChildrenAux fuel es s = .ok (cids, ⟨heap2, s.leafMap⟩)) ∧
    (∀ e s, SExpr.noLet e = true → 3 * e.size ≤ fuel →
       ∃ cids heap2, convertToArrayAux fuel e s = .ok (cids, ⟨heap2, s.leafMap⟩)) ∧
    (∀ es s, SExpr.noLetList es = true → 3 * SExpr.sizeList es + 1 ≤ fuel →
       ∃ cids heap2, convertListAux fuel es s = .ok (cids, ⟨heap2, s.leafMap⟩)) := by
  intro fuel
  induction fuel with
  | zero =>
    refine ⟨fun e s _ hsz => absurd hsz ?_, fun es s _ hsz => absurd hsz (by omega),
      fun e s _ hsz => absurd hsz ?_, fun es s _ hsz => absurd hsz (by omega)⟩ <;>
      (have hsp := SExpr.size_pos e; omega)
  | succ f ih =>
    obtain ⟨ihE, ihC, ihA, ihX⟩ := ih
    have hEgoal : ∀ e s, SExpr.noLet e = true → 3 * e.size ≤ f + 1 →
        ∃ nid heap2, convertAux (f + 1) e s = .ok (nid, ⟨heap2, s.leafMap⟩) := by
      intro e s hn hsz
      cases e with
      | atom a =>
        cases hm : mapGet s.leafMap a with
        | some nid => exact ⟨nid, s.heap, by rw [convertAux_atom, hm]; try rfl⟩
        | none => exact ⟨s.heap.length, s.heap ++ [⟨some a, []⟩], by rw [convertAux_atom, hm]; try rfl⟩
      | list es =>
        cases es with
        | nil => exact ⟨s.heap.length, s.heap ++ [⟨some "()", []⟩], by rw [convertAux_nil]; try rfl⟩
        | cons first rest =>
          simp only [SExpr.noLet, Bool.and_eq_true, Bool.not_eq_eq_eq_not, Bool.not_true] at hn
          obtain ⟨hlf, hnl⟩ := hn
          simp only [SExpr.noLetList, Bool.and_eq_true] at hnl
          obtain ⟨hn1, hn2⟩ := hnl
          simp only [SExpr.size, SExpr.sizeList] at hsz
          have hpos1 := SExpr.size_pos first
          cases first with
          | list l =>
            obtain ⟨cids, heap2, hc⟩ := ihC rest s hn2 (by omega)
            exact ⟨heap2.length, heap2 ++ [⟨some (nodeName (.list l)), cids⟩],
              by rw [convertAux_list_head, hc]; try rfl⟩
          | atom n =>
            cases rest with
            | nil =>
              obtain ⟨cids, heap2, hc⟩ := ihC [] s rfl (by omega)
              exact ⟨heap2.length, heap2 ++ [⟨some n, cids⟩], by rw [convertAux_one_atom, hc]; try rfl⟩
            | cons f2 rest2 =>
              cases rest2 with
              | nil =>
                obtain ⟨cids, heap2, hc⟩ := ihC [f2] s hn2 (by
                  simp only [SExpr.sizeList] at hsz ⊢; omega)
                exact ⟨heap2.length, heap2 ++ [⟨some n, cids⟩], by rw [convertAux_two_atom, hc]; try rfl⟩
              | cons f3 rest3 =>
                cases rest3 with
                | cons f4 rest4 =>
                  obtain ⟨cids, heap2, hc⟩ := ihC (f2 :: f3 :: f4 :: rest4) s hn2 (by
                    simp only [SExpr.sizeList] at hsz ⊢; omega)
                  exact ⟨heap2.length, heap2 ++ [⟨some n, cids⟩],
                    by rw [convertAux_four_atom, hc]; try rfl⟩
                | nil =>
                  simp only [SExpr.isLetForm, Bool.or_eq_false_iff, decide_eq_false_iff_not]
                    at hlf
                  obtain ⟨cids, heap2, hc⟩ := ihC [f2, f3] s hn2 (by
                    simp only [SExpr.sizeList] at hsz ⊢; omega)
                  refine ⟨heap2.length, heap2 ++ [⟨some n, cids⟩], ?_⟩
                  rw [convertAux_three_atom, if_neg (by simp [hlf.1, hlf.2]), hc]; try rfl
    refine ⟨hEgoal, ?_, ?_, ?_⟩
    · intro es s hn hsz
      cases es with
      | nil => exact ⟨[], s.heap, by rw [convertChildrenAux_nil]; try rfl⟩
      | cons e1 tl1 =>
        simp only [SExpr.noLetList, Bool.and_eq_true] at hn
        obtain ⟨hn1, hn2⟩ := hn
        simp only [SExpr.sizeList] at hsz
        have hpos1 := SExpr.size_pos e1
        cases tl1 with
        | nil =>
          obtain ⟨nid, heap2, hv⟩ := ihE e1 s hn1 (by omega)
          cases e1 with
          | atom a => exact ⟨[nid], heap2, by rw [convertChildrenAux_one_atom, hv]; try rfl⟩
          | list l => exact ⟨[nid], heap2, by rw [convertChildrenAux_one_list, hv]; try rfl⟩
        | cons v rest =>
          simp only [SExpr.sizeList] at hsz
          have hposv := SExpr.size_pos v
          have hnv : SExpr.noLet v = true := by
            simp only [SExpr.noLetList, Bool.and_eq_true] at hn2
            exact hn2.1
          have hntl : SExpr.noLetList (v :: rest) = true := hn2
          cases e1 with
          | list l =>
            obtain ⟨cid, heap2, hv⟩ := ihE (.list l) s hn1 (by omega)
            obtain ⟨more, heap3, hm⟩ := ihC (v :: rest) ⟨heap2, s.leafMap⟩ hntl
              (by simp only [SExpr.sizeList]; omega)
            exact ⟨cid :: more, heap3,
              by rw [convertChildrenAux_list_cons, hv]; simp only []; rw [hm]; try rfl⟩
          | atom k =>
            by_cases hkw : (isKeywordStr k && !isKeyword v) = true
            · obtain ⟨cids, heap2, ha⟩ := ihA v s hnv (by omega)
              have hnrest : SExpr.noLetList rest = true := by
                simp only [SExpr.noLetList, Bool.and_eq_true] at hn2
                exact hn2.2
              obtain ⟨more, heap3, hm⟩ := ihC rest
                ⟨heap2 ++ [⟨some k, cids⟩], s.leafMap⟩ hnrest (by omega)
              exact ⟨heap2.length :: more, heap3,
                by rw [convertChildrenAux_atom_cons, if_pos hkw, ha]; simp only []; rw [hm]; try rfl⟩
            · obtain ⟨cid, heap2, hv⟩ := ihE (.atom k) s rfl (by
                simp only [SExpr.size]; omega)
              obtain ⟨more, heap3, hm⟩ := ihC (v :: rest) ⟨heap2, s.leafMap⟩ hntl
                (by simp only [SExpr.sizeList]; omega)
              exact ⟨cid :: more, heap3,
                by rw [convertChildrenAux_atom_cons, if_neg hkw, hv]; simp only []; rw [hm]; try rfl⟩
    · intro e s hn hsz
      cases e with
      | atom a => exact ⟨[s.heap.length], s.heap ++ [⟨some a, []⟩], by rw [convertToArrayAux_atom]⟩
      | list es =>
        simp only [SExpr.noLet, Bool.and_eq_true] at hn
        simp only [SExpr.size] at hsz
        obtain ⟨cids, heap2, hc⟩ := ihX es s hn.2 (by omega)
        exact ⟨cids, heap2, by rw [convertToArrayAux_list, hc]⟩
    · intro es s hn hsz
      cases es with
      | nil => exact ⟨[], s.heap, by rw [convertListAux_nil]; try rfl⟩
      | cons e tl =>
        simp only [SExpr.noLetList, Bool.and_eq_true] at hn
        obtain ⟨hn1, hn2⟩ := hn
        simp only [SExpr.sizeList] at hsz
        have hpos := SExpr.size_pos e
        obtain ⟨nid, heap2, hv⟩ := ihE e s hn1 (by omega)
        obtain ⟨nids, heap3, hm⟩ := ihX tl ⟨heap2, s.leafMap⟩ hn2 (by omega)
        exact ⟨nid :: nids, heap3, by rw [convertListAux_cons, hv]; simp only []; rw [hm]; try rfl⟩

end SExprToTree

section Examples

example : SExprParser.parseAll "(a) ; comment\n(b)".data =
    .ok [.list [.atom "a"], .list [.atom "b"]] := by decide

example : SExprParser.parse "|a b|".data = .ok (.atom "a b") := by decide

example : SExprParser.parse "\"a\\nb\"".data = .ok (.atom "a\nb") := by decide

example : SExprParser.parseAll "(a (".data = .ok [] := by decide

example : SExprParser.parseAll "(a) (".data = .ok [.list [.atom "a"]] := by decide

example : SExprParser.parseAll "(a) ( x".data = .ok [.list [.atom "a"]] := by decide

example : SExprParser.parseAll "(a) ) x".data =
    .error (.syntaxErr "Unexpected close paren" [')', ' ', 'x']) := by decide

-- (let ((x 1)) (f x x)) from the empty state:
-- heap: 0 = leaf "1", 1 = wrapper x, 2 = node f with children [1, 1]
example :
    SExprToTree.convert (.list [.atom "let", .list [.list [.atom "x", .atom "1"]],
        .list [.atom "f", .atom "x", .atom "x"]]) SExprToTree.ConvState.empty =
      .ok (2, ⟨[⟨some "1", []⟩, ⟨some "x", [0]⟩, ⟨some "f", [1, 1]⟩], [("x", 1)]⟩) := by
  decide

-- (f :key v :other (a b)) from the empty state
example :
    SExprToTree.convert (.list [.atom "f", .atom ":key", .atom "v",
        .atom ":other", .list [.atom "a", .atom "b"]]) SExprToTree.ConvState.empty =
      .ok (5, ⟨[⟨some "v", []⟩, ⟨some ":key", [0]⟩, ⟨some "a", []⟩, ⟨some "b", []⟩,
                ⟨some ":other", [2, 3]⟩, ⟨some "f", [1, 4]⟩], []⟩) := by
  decide

example :
    FileLoader.loadSession ["(let ((x (a))) x)".data, "x".data]
        SExprToTree.ConvState.empty =
      .ok ([[1], [1]], ⟨[⟨some "a", []⟩, ⟨some "x", [0]⟩], [("x", 1)]⟩) := by
  decide

end Examples

namespace SExprParser

open SExprToTree

/-- takeWhile and dropWhile split an append exactly at the boundary when the
prefix satisfies the predicate throughout and the suffix starts failing it. -/
theorem takeWhile_dropWhile_append (p : Char → Bool) :
    ∀ (l r : List Char), (∀ c ∈ l, p c = true) →
    (∀ c cs, r = c :: cs → p c = false) →
    (l ++ r).takeWhile p = l ∧ (l ++ r).dropWhile p = r := by
  intro l
  induction l with
  | nil =>
    intro r _ hr
    cases r with
    | nil => simp
    | cons c cs => simp [List.takeWhile_cons, List.dropWhile_cons, hr c cs rfl]
  | cons a l ih =>
    intro r hl hr
    have ha : p a = true := hl a (by simp)
    have h2 := ih r (fun c hc => hl c (by simp [hc])) hr
    simp [List.takeWhile_cons, List.dropWhile_cons, ha, h2.1, h2.2]

/-- What membership in plainChar gives about a character. -/
theorem plainChar_spec (c : Char) (h : plainChar c = true) :
    isDelim c = false ∧ isWs c = false ∧ ¬c = '"' ∧ ¬c = '|' ∧ ¬c = ';' ∧
      ¬c = '(' ∧ ¬c = ')' := by
  simp only [plainChar, Bool.and_eq_true, Bool.not_eq_true'] at h
  obtain ⟨⟨⟨hd, hq⟩, hb⟩, hs⟩ := h
  have hw : isWs c = false := by
    simp only [isDelim, Bool.or_eq_false_iff] at hd
    exact hd.1.1
  have hp : ¬c = '(' := by
    intro hc; subst hc; simp [isDelim] at hd
  have hp2 : ¬c = ')' := by
    intro hc; subst hc; simp [isDelim] at hd
  refine ⟨hd, hw, ?_, ?_, ?_, hp, hp2⟩
  · intro hc; subst hc; simp at hq
  · intro hc; subst hc; simp at hb
  · intro hc; subst hc; simp at hs

/-- parseAtom on a plain atom's text followed by a delimiter (or nothing)
returns exactly that atom and the remainder. -/
theorem parseAtom_plain (s : String) (rest : List Char)
    (hp : (!s.data.isEmpty && s.data.all plainChar) = true)
    (hr : delimOrNil rest = true) :
    parseAtom (s.data ++ rest) = .ok (s, rest) := by
  simp only [Bool.and_eq_true, Bool.not_eq_true', List.all_eq_true] at hp
  obtain ⟨hne, hall⟩ := hp
  cases hd : s.data with
  | nil => rw [hd] at hne; simp at hne
  | cons c cs =>
    have hc := plainChar_spec c (hall c (by rw [hd]; simp))
    have htd := takeWhile_dropWhile_append (fun d => !isDelim d) s.data rest
      (fun d hdm => by simp [(plainChar_spec d (hall d hdm)).1])
      (fun d ds hds => by
        rw [hds] at hr
        simp only [delimOrNil] at hr
        simp [hr])
    rw [hd] at htd
    simp only [parseAtom, List.cons_append]
    rw [skipWhitespace_fix c (cs ++ rest) hc.2.1 hc.2.2.2.2.1]
    simp only []
    rw [if_neg hc.2.2.1, if_neg hc.2.2.2.1]
    have h1 : List.takeWhile (fun d => !isDelim d) (c :: (cs ++ rest)) = c :: cs := by
      simpa [List.cons_append] using htd.1
    have h2 : List.dropWhile (fun d => !isDelim d) (c :: (cs ++ rest)) = rest := by
      simpa [List.cons_append] using htd.2
    rw [h1, h2]
    have hms : String.mk (c :: cs) = s := by rw [← hd]
    rw [hms]

/-- A rendered plain expression starts with a character that the whitespace
skipper leaves in place and that does not close a list. -/
theorem makeString_head_spec (e : SExpr) (hp : e.plain = true) :
    ∃ c cs, makeString e = c :: cs ∧ isWs c = false ∧ ¬c = ';' ∧ ¬c = ')' := by
  cases e with
  | atom s =>
    simp only [SExpr.plain, Bool.and_eq_true, Bool.not_eq_true',
      List.all_eq_true] at hp
    obtain ⟨hne, hall⟩ := hp
    cases hd : s.data with
    | nil => rw [hd] at hne; simp at hne
    | cons c cs =>
      have hc := plainChar_spec c (hall c (by rw [hd]; simp))
      exact ⟨c, cs, by simp [makeString, hd], hc.2.1, hc.2.2.2.2.1, hc.2.2.2.2.2.2⟩
  | list es =>
    refine ⟨'(', makeStringList es ++ [')'], by simp [makeString], by decide,
      by decide, by decide⟩

/-- skipWhitespace leaves a rendered plain expression (plus anything after it)
untouched. -/
theorem sw_fix_render (e : SExpr) (hp : e.plain = true) (tail : List Char) :
    skipWhitespace (makeString e ++ tail) = makeString e ++ tail := by
  obtain ⟨c, cs, hms, hw, hs, _⟩ := makeString_head_spec e hp
  rw [hms]
  exact skipWhitespace_fix c (cs ++ tail) hw hs

/-- skipWhitespace leaves a rendered plain list body followed by a
non-whitespace, non-comment character untouched. -/
theorem sw_fix_msl (es : List SExpr) (c : Char) (tail : List Char)
    (hp : SExpr.plainList es = true) (hw : isWs c = false) (hs : ¬c = ';') :
    skipWhitespace (makeStringList es ++ c :: tail) =
      makeStringList es ++ c :: tail := by
  cases es with
  | nil => simpa [makeStringList] using skipWhitespace_fix c tail hw hs
  | cons e tl =>
    simp only [SExpr.plainList, Bool.and_eq_true] at hp
    cases tl with
    | nil => simpa [makeStringList] using sw_fix_render e hp.1 (c :: tail)
    | cons e2 tl2 =>
      have : makeStringList (e :: e2 :: tl2) ++ c :: tail =
          makeString e ++ (' ' :: makeStringList (e2 :: tl2) ++ c :: tail) := by
        simp [makeStringList]
      rw [this, sw_fix_render e hp.1 _]

/-- Every expression costs at least one unit of parser fuel. -/
theorem cost_pos (e : SExpr) : 1 ≤ e.cost := by
  cases e <;> (simp [SExpr.cost]; try omega)

/-- Every list body costs at least one unit of parser fuel. -/
theorem costList_pos (es : List SExpr) : 1 ≤ SExpr.costList es := by
  cases es <;> (simp [SExpr.costList]; try omega)

/-- Round trip, all levels at once: with enough fuel, parseExpr reads a
rendered plain expression back, parseListLoop reads a rendered plain list
body up to its closing parenthesis, and parseAllLoop reads a rendered plain
top-level sequence. -/
theorem roundTrip_all : ∀ fuel : Nat,
    (∀ e rest, SExpr.plain e = true → delimOrNil rest = true →
      e.cost ≤ fuel → parseExpr fuel (makeString e ++ rest) = .ok (e, rest)) ∧
    (∀ es acc rest, SExpr.plainList es = true → SExpr.costList es ≤ fuel →
      parseListLoop fuel (makeStringList es ++ ')' :: rest) acc =
        .ok (.list (acc ++ es), rest)) ∧
    (∀ es acc, SExpr.plainList es = true → SExpr.costList es ≤ fuel →
      parseAllLoop fuel (makeStringList es) acc = .ok (acc ++ es)) := by
  intro fuel
  induction fuel with
  | zero =>
    refine ⟨fun e _ _ _ hc => absurd hc (by have := cost_pos e; omega),
      fun es _ _ _ hc => absurd hc (by have := costList_pos es; omega),
      fun es _ _ hc => absurd hc (by have := costList_pos es; omega)⟩
  | succ f ih =>
    obtain ⟨ihE, ihL, ihA⟩ := ih
    have stepE : ∀ e rest, SExpr.plain e = true → delimOrNil rest = true →
        e.cost ≤ f + 1 → parseExpr (f + 1) (makeString e ++ rest) = .ok (e, rest) := by
      intro e rest hp hr hc
      cases e with
      | atom s =>
        have hp' := hp
        simp only [SExpr.plain] at hp'
        simp only [Bool.and_eq_true, Bool.not_eq_true', List.all_eq_true] at hp'
        obtain ⟨hne, hall⟩ := hp'
        cases hd : s.data with
        | nil => rw [hd] at hne; simp at hne
        | cons c cs =>
          have hcc := plainChar_spec c (hall c (by rw [hd]; simp))
          rw [parseExpr_succ]
          have hin : makeString (.atom s) ++ rest = c :: (cs ++ rest) := by
            simp [makeString, hd]
          rw [hin]
          rw [skipWhitespace_fix c (cs ++ rest) hcc.2.1 hcc.2.2.2.2.1]
          simp only []
          rw [if_neg hcc.2.2.2.2.2.1, if_neg hcc.2.2.2.2.2.2]
          have hpa : parseAtom (s.data ++ rest) = .ok (s, rest) :=
            parseAtom_plain s rest (by
              simp only [Bool.and_eq_true, Bool.not_eq_true', List.all_eq_true]
              exact ⟨hne, hall⟩) hr
          rw [hd] at hpa
          have h2 : c :: (cs ++ rest) = (c :: cs) ++ rest := rfl
          rw [h2, hpa]
      | list es =>
        have hp' : SExpr.plainList es = true := hp
        have hcost : SExpr.costList es ≤ f := by
          simp only [SExpr.cost] at hc; omega
        rw [parseExpr_succ]
        have hms : makeString (.list es) ++ rest =
            '(' :: (makeStringList es ++ ')' :: rest) := by
          simp [makeString]
        rw [hms]
        rw [skipWhitespace_fix '(' _ (by decide) (by decide)]
        simp only [if_pos rfl]
        rw [sw_fix_msl es ')' rest hp' (by decide) (by decide)]
        have := ihL es [] rest hp' hcost
        rw [this]
        simp
    refine ⟨stepE, ?_, ?_⟩
    · intro es acc rest hp hc
      cases es with
      | nil =>
        rw [parseListLoop_succ]
        simp [makeStringList]
      | cons e tl =>
        simp only [SExpr.plainList, Bool.and_eq_true] at hp
        obtain ⟨hpe, hptl⟩ := hp
        obtain ⟨c, cs, hms, hw, hs, hnp⟩ := makeString_head_spec e hpe
        have hcoste : e.cost ≤ f := by
          simp only [SExpr.costList] at hc
          have := costList_pos tl; omega
        have hcosttl : SExpr.costList tl ≤ f := by
          simp only [SExpr.costList] at hc
          have := cost_pos e; omega
        cases tl with
        | nil =>
          have hinp : makeStringList [e] ++ ')' :: rest =
              c :: (cs ++ ')' :: rest) := by
            simp [makeStringList, hms]
          rw [hinp, parseListLoop_succ]
          simp only []
          rw [if_neg hnp]
          have hpe2 : parseExpr f (c :: (cs ++ ')' :: rest)) = .ok (e, ')' :: rest) := by
            have : c :: (cs ++ ')' :: rest) = makeString e ++ ')' :: rest := by
              rw [hms]; rfl
            rw [this]
            exact ihE e (')' :: rest) hpe (by simp [delimOrNil, isDelim]) hcoste
          rw [hpe2]
          simp only []
          rw [skipWhitespace_fix ')' rest (by decide) (by decide)]
          have hfin := ihL [] (acc ++ [e]) rest rfl hcosttl
          simpa [makeStringList] using hfin
        | cons e2 tl2 =>
          have hinp : makeStringList (e :: e2 :: tl2) ++ ')' :: rest =
              c :: (cs ++ (' ' :: (makeStringList (e2 :: tl2) ++ ')' :: rest))) := by
            simp [makeStringList, hms]
          rw [hinp, parseListLoop_succ]
          simp only []
          rw [if_neg hnp]
          have hpe2 : parseExpr f (c :: (cs ++ (' ' :: (makeStringList (e2 :: tl2) ++ ')' :: rest)))) =
              .ok (e, ' ' :: (makeStringList (e2 :: tl2) ++ ')' :: rest)) := by
            have : c :: (cs ++ (' ' :: (makeStringList (e2 :: tl2) ++ ')' :: rest))) =
                makeString e ++ (' ' :: (makeStringList (e2 :: tl2) ++ ')' :: rest)) := by
              rw [hms]; rfl
            rw [this]
            exact ihE e _ hpe (by simp [delimOrNil, isDelim, isWs]) hcoste
          rw [hpe2]
          simp only []
          have hsw2 : skipWhitespace (' ' :: (makeStringList (e2 :: tl2) ++ ')' :: rest)) =
              makeStringList (e2 :: tl2) ++ ')' :: rest := by
            have h1 : skipWhitespace (' ' :: (makeStringList (e2 :: tl2) ++ ')' :: rest)) =
                skipWhitespace (makeStringList (e2 :: tl2) ++ ')' :: rest) := by
              simp [skipWhitespace, skipWsAux, isWs]
            rw [h1]
            exact sw_fix_msl (e2 :: tl2) ')' rest hptl (by decide) (by decide)
          rw [hsw2]
          have := ihL (e2 :: tl2) (acc ++ [e]) rest hptl hcosttl
          rw [this]
          simp
    · intro es acc hp hc
      cases es with
      | nil =>
        rw [parseAllLoop_succ]
        simp [makeStringList]
      | cons e tl =>
        simp only [SExpr.plainList, Bool.and_eq_true] at hp
        obtain ⟨hpe, hptl⟩ := hp
        obtain ⟨c, cs, hms, hw, hs, hnp⟩ := makeString_head_spec e hpe
        have hcoste : e.cost ≤ f := by
          simp only [SExpr.costList] at hc
          have := costList_pos tl; omega
        have hcosttl : SExpr.costList tl ≤ f := by
          simp only [SExpr.costList] at hc
          have := cost_pos e; omega
        cases tl with
        | nil =>
          have hinp : makeStringList [e] = c :: cs := by
            simp [makeStringList, hms]
          rw [hinp, parseAllLoop_succ]
          simp only []
          have hpe2 : parseExpr f (c :: cs) = .ok (e, []) := by
            have : c :: cs = makeString e ++ [] := by rw [hms]; simp
            rw [this]
            exact ihE e [] hpe (by simp [delimOrNil]) hcoste
          rw [hpe2]
          simp only []
          have hsw : skipWhitespace ([] : List Char) = [] := rfl
          rw [hsw]
          have := ihA [] (acc ++ [e]) rfl (by
            have := costList_pos ([] : List SExpr)
            simp only [SExpr.costList] at hc ⊢
            omega)
          simp only [makeStringList] at this
          rw [this]
          simp
        | cons e2 tl2 =>
          have hinp : makeStringList (e :: e2 :: tl2) =
              c :: (cs ++ (' ' :: makeStringList (e2 :: tl2))) := by
            simp [makeStringList, hms]
          rw [hinp, parseAllLoop_succ]
          simp only []
          have hpe2 : parseExpr f (c :: (cs ++ (' ' :: makeStringList (e2 :: tl2)))) =
              .ok (e, ' ' :: makeStringList (e2 :: tl2)) := by
            have : c :: (cs ++ (' ' :: makeStringList (e2 :: tl2))) =
                makeString e ++ (' ' :: makeStringList (e2 :: tl2)) := by
              rw [hms]; rfl
            rw [this]
            exact ihE e _ hpe (by simp [delimOrNil, isDelim, isWs]) hcoste
          rw [hpe2]
          simp only []
          have hsw2 : skipWhitespace (' ' :: makeStringList (e2 :: tl2)) =
              makeStringList (e2 :: tl2) := by
            have h1 : skipWhitespace (' ' :: makeStringList (e2 :: tl2)) =
                skipWhitespace (makeStringList (e2 :: tl2)) := by
              simp [skipWhitespace, skipWsAux, isWs]
            rw [h1]
            obtain ⟨d, ds, hms2, hw2, hs2, _⟩ := makeString_head_spec e2 (by
              simp only [SExpr.plainList, Bool.and_eq_true] at hptl
              exact hptl.1)
            have : makeStringList (e2 :: tl2) = makeString e2 ++
                (match tl2 with
                 | [] => []
                 | _ :: _ => ' ' :: makeStringList tl2) := by
              cases tl2 <;> simp [makeStringList]
            rw [this, hms2]
            exact skipWhitespace_fix d _ hw2 hs2
          rw [hsw2]
          have := ihA (e2 :: tl2) (acc ++ [e]) hptl hcosttl
          rw [this]
          simp

end SExprParser

namespace SExprParser

open SExprToTree

/-- Rendering cost bounds: the parser fuel needed to read back a rendered
plain expression is at most twice the rendering length (plus a constant for
list bodies). -/
theorem costBound_all : ∀ n : Nat,
    (∀ e : SExpr, e.size ≤ n → e.plain = true →
      e.cost ≤ 2 * (makeString e).length) ∧
    (∀ es : List SExpr, SExpr.sizeList es ≤ n → SExpr.plainList es = true →
      SExpr.costList es ≤ 2 * (makeStringList es).length + 3) := by
  intro n
  induction n with
  | zero =>
    constructor
    · intro e hsz _
      have := SExpr.size_pos e
      omega
    · intro es hsz hp
      cases es with
      | nil => simp [SExpr.costList, makeStringList]
      | cons e tl =>
        have := SExpr.size_pos e
        simp only [SExpr.sizeList] at hsz
        omega
  | succ n ih =>
    have hA : ∀ e : SExpr, e.size ≤ n + 1 → e.plain = true →
        e.cost ≤ 2 * (makeString e).length := by
      intro e hsz hp
      cases e with
      | atom s =>
        simp only [SExpr.plain, Bool.and_eq_true, Bool.not_eq_true',
          List.all_eq_true] at hp
        simp only [SExpr.cost, makeString]
        cases hd : s.data with
        | nil => rw [hd] at hp; simp at hp
        | cons c cs => simp [hd]; omega
      | list es =>
        have hszl : SExpr.sizeList es ≤ n := by
          simp only [SExpr.size] at hsz
          omega
        have hb := ih.2 es hszl hp
        simp only [SExpr.cost, makeString]
        have hlen : ('(' :: makeStringList es ++ [')']).length =
            (makeStringList es).length + 2 := by simp
        rw [hlen]
        omega
    refine ⟨hA, ?_⟩
    intro es
    induction es with
    | nil =>
      intro _ _
      simp [SExpr.costList, makeStringList]
    | cons e tl ihtl =>
      intro hsz hp
      simp only [SExpr.sizeList] at hsz
      simp only [SExpr.plainList, Bool.and_eq_true] at hp
      have hszE : e.size ≤ n + 1 := by omega
      have he := hA e hszE hp.1
      cases tl with
      | nil =>
        simp only [SExpr.costList, makeStringList]
        omega
      | cons e2 tl2 =>
        have htl := ihtl (by omega) hp.2
        simp only [SExpr.costList, makeStringList] at htl ⊢
        have hlen : (makeString e ++ ' ' :: makeStringList (e2 :: tl2)).length =
            (makeString e).length + 1 + (makeStringList (e2 :: tl2)).length := by
          simp; omega
        rw [hlen]
        omega

/-- The parseAll fuel allowance on a rendered plain sequence covers its
reading cost. -/
theorem costList_le_fuelFor (es : List SExpr) (hp : SExpr.plainList es = true) :
    SExpr.costList es ≤ fuelFor (makeStringList es) := by
  cases es with
  | nil => simp [SExpr.costList, makeStringList, fuelFor]
  | cons e tl =>
    simp only [SExpr.plainList, Bool.and_eq_true] at hp
    have he := (costBound_all e.size).1 e le_rfl hp.1
    cases tl with
    | nil =>
      simp only [SExpr.costList, makeStringList, fuelFor]
      omega
    | cons e2 tl2 =>
      have htl := (costBound_all (SExpr.sizeList (e2 :: tl2))).2 (e2 :: tl2)
        le_rfl hp.2
      simp only [SExpr.costList, makeStringList, fuelFor] at htl ⊢
      have hlen : (makeString e ++ ' ' :: makeStringList (e2 :: tl2)).length =
          (makeString e).length + 1 + (makeStringList (e2 :: tl2)).length := by
        simp; omega
      rw [hlen]
      omega

/-- skipWhitespace leaves a rendered plain top-level sequence untouched. -/
theorem sw_fix_msl_top (es : List SExpr) (hp : SExpr.plainList es = true) :
    skipWhitespace (makeStringList es) = makeStringList es := by
  cases es with
  | nil => rfl
  | cons e tl =>
    simp only [SExpr.plainList, Bool.and_eq_true] at hp
    cases tl with
    | nil =>
      have := sw_fix_render e hp.1 []
      simpa [makeStringList] using this
    | cons e2 tl2 =>
      have : makeStringList (e :: e2 :: tl2) =
          makeString e ++ ' ' :: makeStringList (e2 :: tl2) := by
        simp [makeStringList]
      rw [this, sw_fix_render e hp.1 _]

/-- parseAll reads a rendered plain top-level sequence back exactly. -/
theorem parseAll_render (es : List SExpr) (hp : SExpr.plainList es = true) :
    parseAll (makeStringList es) = .ok es := by
  show parseAllLoop (fuelFor (makeStringList es))
      (skipWhitespace (makeStringList es)) [] = .ok es
  rw [sw_fix_msl_top es hp]
  have := (roundTrip_all (fuelFor (makeStringList es))).2.2 es [] hp
    (costList_le_fuelFor es hp)
  simpa using this

end SExprParser

open SExprParser SExprToTree in
/-- Counterexample to claim C4 as stated: the document |a b| parses to the
single atom "a b", but makeString renders that atom without quoting, so the
rendering reads back as two atoms. -/
theorem claim_C4_counterexample :
    parseAll "|a b|".data = .ok [.atom "a b"] ∧
    parseAll (makeStringList [.atom "a b"]) = .ok [.atom "a", .atom "b"] ∧
    ¬([SExpr.atom "a", SExpr.atom "b"] = [SExpr.atom "a b"]) := by
  refine ⟨by decide, by decide, by decide⟩

open SExprParser SExprToTree in
/-- Claim C4, amended: for documents whose parse result uses only plain
atoms (nonempty, no delimiter and no quote, bar or semicolon characters),
re-serializing with makeString and space-joining, then parsing again,
reproduces the same sequence of SExpr values. Atoms that require the quoted
|...| or "..." forms are not rendered back into those forms, and are
excluded (see the counterexample). -/
theorem claim_C4 (D : List Char) (es : List SExpr)
    (h : parseAll D = .ok es) (hp : SExpr.plainList es = true) :
    parseAll (makeStringList es) = parseAll D := by
  rw [h]
  exact parseAll_render es hp

open SExprParser SExprToTree in
/-- Witness for claim C4 at a concrete document. -/
theorem claim_C4_witness :
    parseAll (makeStringList [SExpr.list [.atom "f", .atom "a"]]) =
      parseAll "( f  a )".data :=
  claim_C4 "( f  a )".data [SExpr.list [.atom "f", .atom "a"]]
    (by decide) (by decide)

namespace SExprParser

/-- The scanning loop of parseString returns the accumulated content plus the
plain part of the input when the input continues with unescaped plain
characters up to a closing quote. -/
theorem parseStringLoop_plain : ∀ (content : List Char) (acc rest : List Char),
    (∀ c ∈ content, ¬c = '"' ∧ ¬c = '\\') →
    parseStringLoop (content ++ '"' :: rest) false acc =
      .ok (String.mk (acc ++ content), rest) := by
  intro content
  induction content with
  | nil =>
    intro acc rest _
    simp [parseStringLoop]
  | cons c tl ih =>
    intro acc rest h
    have hc := h c (by simp)
    simp only [List.cons_append, parseStringLoop]
    rw [if_neg hc.2, if_neg hc.1]
    have h2 := ih (acc ++ [c]) rest (fun d hd => h d (by simp [hd]))
    simpa using h2

end SExprParser

open SExprParser in
/-- Counterexample to claim C5's example as stated: the text written there,
quote a backslash n b quote, has six characters, not five. -/
theorem claim_C5_counterexample :
    textC5.length = 6 ∧ ¬textC5.length = 5 := by
  refine ⟨by decide, by decide⟩

open SExprParser in
/-- Claim C5, amended: parsing a quoted string yields an Atom equal to the
unescaped content. The backslash escapes n, t, r translate to newline, tab
and carriage return, escaped backslash and quote stand for themselves, and
any other escaped character passes through literally (all per escRepl);
reaching end of input before the closing quote is the fatal unclosed-string
error. The example text quote a backslash n b quote has six characters, and
parse on it returns the atom with a literal newline between a and b. -/
theorem claim_C5 :
    (∀ c rest, parseString ('"' :: '\\' :: c :: '"' :: rest) =
      .ok (String.mk [escRepl c], rest)) ∧
    (escRepl 'n' = '\n' ∧ escRepl 't' = '\t' ∧ escRepl 'r' = '\r' ∧
      escRepl '\\' = '\\' ∧ escRepl '"' = '"') ∧
    (∀ c, ¬c = 'n' → ¬c = 't' → ¬c = 'r' → escRepl c = c) ∧
    (∀ content, (∀ c ∈ content, ¬c = '"') → ∀ esc acc,
      parseStringLoop content esc acc =
        .error (.syntaxErr "Unclosed string literal" [])) ∧
    (∀ content rest, (∀ c ∈ content, ¬c = '"' ∧ ¬c = '\\') →
      parseString ('"' :: (content ++ '"' :: rest)) =
        .ok (String.mk content, rest)) ∧
    (parse textC5 = .ok (.atom "a\nb") ∧ textC5.length = 6) := by
  refine ⟨fun c rest => rfl, by decide, ?_, ?_, ?_, by decide, by decide⟩
  · intro c hn ht hr
    simp [escRepl, hn, ht, hr]
  · intro content
    induction content with
    | nil =>
      intro _ esc acc
      cases esc <;> rfl
    | cons c tl ih =>
      intro hq esc acc
      have hc : ¬c = '"' := hq c (by simp)
      have ih2 := ih (fun d hd => hq d (by simp [hd]))
      cases esc with
      | false =>
        simp only [parseStringLoop]
        by_cases hb : c = '\\'
        · rw [if_pos hb]
          exact ih2 true acc
        · rw [if_neg hb, if_neg hc]
          exact ih2 false (acc ++ [c])
      | true =>
        simp only [parseStringLoop]
        exact ih2 false (acc ++ [escRepl c])
  · intro content rest h
    have h2 := parseStringLoop_plain content [] rest h
    simpa [parseString] using h2

open SExprParser in
/-- Witness for claim C5 at concrete inputs: a non-special escaped character
passes through, a quote-free input is an unclosed string, and a plain
string parses to its content. -/
theorem claim_C5_witness :
    escRepl 'q' = 'q' ∧
    parseStringLoop ['a'] false [] =
      .error (.syntaxErr "Unclosed string literal" []) ∧
    parseString ('"' :: (['a', 'b'] ++ '"' :: ['x'])) =
      .ok (String.mk ['a', 'b'], ['x']) :=
  ⟨claim_C5.2.2.1 'q' (by decide) (by decide) (by decide),
   claim_C5.2.2.2.1 ['a'] (by decide) false [],
   claim_C5.2.2.2.2.1 ['a', 'b'] ['x'] (by decide)⟩

open SExprParser in
/-- Claim C10: the parser terminates on every finite input. Every successful
parseExpr call strictly advances the input position (strictly shortens the
remaining input), so the loops cannot iterate forever: with the fuel the
wrappers supply, parse and parseAll never report fuel exhaustion — they
always either return a value or throw a syntax error. -/
theorem claim_C10 :
    (∀ fuel inp e r, parseExpr fuel inp = .ok (e, r) → r.length < inp.length) ∧
    (∀ inp, parse inp ≠ .error .outOfFuel) ∧
    (∀ inp, parseAll inp ≠ .error .outOfFuel) := by
  refine ⟨fun fuel inp e r h => (parser_progress fuel).1 inp e r h, ?_, ?_⟩
  · intro inp
    unfold parse
    cases hpe : parseExpr (fuelFor inp) (skipWhitespace inp) with
    | error err =>
      have hne := (parser_adequacy (fuelFor inp)).1 (skipWhitespace inp)
        (by have := skipWhitespace_length inp; simp only [fuelFor]; omega)
      intro hcontra
      simp only [Except.error.injEq] at hcontra
      exact hne (by rw [hpe, hcontra])
    | ok q =>
      obtain ⟨e, r⟩ := q
      simp only []
      cases skipWhitespace r with
      | nil => simp
      | cons d ds => simp
  · intro inp
    unfold parseAll
    exact (parser_adequacy (fuelFor inp)).2.2 (skipWhitespace inp) []
      (by have := skipWhitespace_length inp; simp only [fuelFor]; omega)

open SExprParser in
/-- Witness for claim C10's progress conjunct at a concrete parse. -/
theorem claim_C10_witness :
    ([] : List Char).length < "ab".data.length :=
  claim_C10.1 10 "ab".data (.atom "ab") [] (by decide)

open SExprParser in
/-- Claim C2: parseAll semantics. A syntax error escapes parseAll only when
the input remaining at the throw site is nonempty after skipping whitespace
and comments; after each successful parse the loop skips whitespace and
resumes with the expression appended; a failed parse attempt whose remainder
is empty after skipping is swallowed, returning the expressions parsed so far;
and a failed parse attempt with content remaining rethrows the original
error. -/
theorem claim_C2 :
    (∀ inp m r, parseAll inp = .error (.syntaxErr m r) → ¬skipWhitespace r = []) ∧
    (∀ fuel c rest acc e r, parseExpr fuel (c :: rest) = .ok (e, r) →
       parseAllLoop (fuel + 1) (c :: rest) acc =
         parseAllLoop fuel (skipWhitespace r) (acc ++ [e])) ∧
    (∀ fuel c rest acc m r, parseExpr fuel (c :: rest) = .error (.syntaxErr m r) →
       skipWhitespace r = [] → parseAllLoop (fuel + 1) (c :: rest) acc = .ok acc) ∧
    (∀ fuel c rest acc m r, parseExpr fuel (c :: rest) = .error (.syntaxErr m r) →
       ¬skipWhitespace r = [] →
       parseAllLoop (fuel + 1) (c :: rest) acc = .error (.syntaxErr m r)) := by
  refine ⟨?_, ?_, ?_, ?_⟩
  · intro inp m r h
    exact parseAllLoop_err_shape (fuelFor inp) (skipWhitespace inp) [] m r h
  · intro fuel c rest acc e r h
    rw [parseAllLoop_succ]
    simp only []
    rw [h]
  · intro fuel c rest acc m r h hsw
    rw [parseAllLoop_succ]
    simp only []
    rw [h]
    simp only []
    rw [hsw]
  · intro fuel c rest acc m r h hsw
    rw [parseAllLoop_succ]
    simp only []
    rw [h]
    simp only []

open SExprParser in
/-- Witness for claim C2 at concrete inputs: an escaping error has content
after the throw site; a successful parse resumes; a trailing malformed
fragment is swallowed; a malformed fragment with content after it rethrows. -/
theorem claim_C2_witness :
    ¬skipWhitespace [')', ' ', 'x'] = [] ∧
    parseAllLoop 10 "x y".data [] = parseAllLoop 9 (skipWhitespace " y".data) [.atom "x"] ∧
    parseAllLoop 6 "(".data [] = .ok [] ∧
    parseAllLoop 6 ")x".data [] =
      .error (.syntaxErr "Unexpected close paren" [')', 'x']) := by
  refine ⟨claim_C2.1 "(a) ) x".data "Unexpected close paren" [')', ' ', 'x'] (by decide),
    ?_, ?_, ?_⟩
  · exact claim_C2.2.1 9 'x' " y".data [] (.atom "x") " y".data (by decide)
  · exact claim_C2.2.2.1 5 '(' [] [] "Unclosed list: missing closing parenthesis" []
      (by decide) (by decide)
  · exact claim_C2.2.2.2 5 ')' ['x'] [] "Unexpected close paren" [')', 'x']
      (by decide) (by decide)

open SExprParser in
/-- Claim C8: for every input consisting solely of whitespace and comments,
including the empty string, parseAll returns the empty sequence and raises no
error. -/
theorem claim_C8 (inp : List Char) (h : wsCommentOnly inp = true) :
    parseAll inp = .ok [] := by
  unfold parseAll
  have hsw : skipWhitespace inp = [] := skipWsAux_of_wsCommentOnly inp false h
  rw [hsw]
  show parseAllLoop (2 * inp.length + 1 + 1) [] [] = .ok []
  rw [parseAllLoop_succ]

open SExprParser in
/-- Witness for claim C8: a comment plus whitespace, and the empty string. -/
theorem claim_C8_witness :
    parseAll "; note\n \t\r ".data = .ok [] ∧ parseAll "".data = .ok [] :=
  ⟨claim_C8 "; note\n \t\r ".data (by decide), claim_C8 "".data (by decide)⟩

open SExprToTree in
/-- Claim C1 is false as stated: it asserts that for every Binding Environment
with no prior binding of x, convert((let ((x 1)) (f x x))) makes the node the
environment maps x to a node named x with the single child leaf 1. In the
state sBadC1, which has no binding of x but binds the literal "1" to a node
named "weird", the conversion returns root 2; the environment maps x to node 1,
whose single child is node 0 — and node 0 is the "weird" node, not a leaf
named "1". -/
theorem claim_C1_counterexample :
    mapGet sBadC1.leafMap "x" = none ∧
    convert letExample sBadC1 =
      .ok (2, ⟨[⟨some "weird", []⟩, ⟨some "x", [0]⟩, ⟨some "f", [1, 1]⟩],
               [("1", 0), ("x", 1)]⟩) ∧
    mapGet [("1", 0), ("x", 1)] "x" = some 1 ∧
    heapGet ⟨[⟨some "weird", []⟩, ⟨some "x", [0]⟩, ⟨some "f", [1, 1]⟩],
             [("1", 0), ("x", 1)]⟩ 1 = some ⟨some "x", [0]⟩ ∧
    ¬heapGet ⟨[⟨some "weird", []⟩, ⟨some "x", [0]⟩, ⟨some "f", [1, 1]⟩],
              [("1", 0), ("x", 1)]⟩ 0 = some ⟨some "1", []⟩ := by
  decide

open SExprToTree in
/-- Claim C1, amended: for every let/let-proof form the bindings are processed
in order — each well-formed entry (NAME VALUE) converts VALUE, wraps it in a
new node, and stores the wrapper under NAME in the Binding Environment,
overwriting any prior binding — and after the bindings the body is converted;
consequently, for an environment with no prior binding of x *and none for the
literal 1*, convert((let ((x 1)) (f x x))) returns a node named f whose two
children are the very same node (named x, with the single child leaf 1) that
the environment maps x to. -/
theorem claim_C1 (s : ConvState)
    (_hx : mapGet s.leafMap "x" = none) (h1 : mapGet s.leafMap "1" = none) :
    (∀ fuel body s0, convertLetAux (fuel + 1) ([] : List SExpr) body s0 =
       convertAux fuel body s0) ∧
    (∀ fuel name value bs body s0,
       convertLetAux (fuel + 1) (.list [.atom name, value] :: bs) body s0 =
         (match convertAux fuel value s0 with
          | .error e => .error e
          | .ok (vid, s1) =>
            convertLetAux fuel bs body
              ⟨s1.heap ++ [⟨some name, [vid]⟩], mapSet s1.leafMap name s1.heap.length⟩)) ∧
    (∀ m k v, mapGet (mapSet m k v) k = some v) ∧
    convert letExample s = .ok (s.heap.length + 2, letExampleFinal s) ∧
    heapGet (letExampleFinal s) (s.heap.length + 2) =
      some ⟨some "f", [s.heap.length + 1, s.heap.length + 1]⟩ ∧
    mapGet (letExampleFinal s).leafMap "x" = some (s.heap.length + 1) ∧
    heapGet (letExampleFinal s) (s.heap.length + 1) = some ⟨some "x", [s.heap.length]⟩ ∧
    heapGet (letExampleFinal s) s.heap.length = some ⟨some "1", []⟩ := by
  refine ⟨fun fuel body s0 => convertLetAux_nil fuel body s0,
    fun fuel name value bs body s0 => convertLetAux_cons fuel name value bs body s0,
    fun m k v => mapGet_mapSet_self m k v,
    convert_letExample s h1, ?_, ?_, ?_, ?_⟩
  · have := heapGet_append s.heap
      [⟨some "1", []⟩, ⟨some "x", [s.heap.length]⟩,
        ⟨some "f", [s.heap.length + 1, s.heap.length + 1]⟩]
      (mapSet s.leafMap "x" (s.heap.length + 1)) 2
    simpa [letExampleFinal] using this
  · simp [letExampleFinal, mapGet_mapSet_self]
  · have := heapGet_append s.heap
      [⟨some "1", []⟩, ⟨some "x", [s.heap.length]⟩,
        ⟨some "f", [s.heap.length + 1, s.heap.length + 1]⟩]
      (mapSet s.leafMap "x" (s.heap.length + 1)) 1
    simpa [letExampleFinal] using this
  · have := heapGet_append s.heap
      [⟨some "1", []⟩, ⟨some "x", [s.heap.length]⟩,
        ⟨some "f", [s.heap.length + 1, s.heap.length + 1]⟩]
      (mapSet s.leafMap "x" (s.heap.length + 1)) 0
    simpa [letExampleFinal] using this

open SExprToTree in
/-- Witness for claim C1 at the empty session state. -/
theorem claim_C1_witness :
    (∀ fuel body s0, convertLetAux (fuel + 1) ([] : List SExpr) body s0 =
       convertAux fuel body s0) ∧
    (∀ fuel name value bs body s0,
       convertLetAux (fuel + 1) (.list [.atom name, value] :: bs) body s0 =
         (match convertAux fuel value s0 with
          | .error e => .error e
          | .ok (vid, s1) =>
            convertLetAux fuel bs body
              ⟨s1.heap ++ [⟨some name, [vid]⟩], mapSet s1.leafMap name s1.heap.length⟩)) ∧
    (∀ m k v, mapGet (mapSet m k v) k = some v) ∧
    convert letExample ConvState.empty =
      .ok (ConvState.empty.heap.length + 2, letExampleFinal ConvState.empty) ∧
    heapGet (letExampleFinal ConvState.empty) (ConvState.empty.heap.length + 2) =
      some ⟨some "f", [ConvState.empty.heap.length + 1, ConvState.empty.heap.length + 1]⟩ ∧
    mapGet (letExampleFinal ConvState.empty).leafMap "x" =
      some (ConvState.empty.heap.length + 1) ∧
    heapGet (letExampleFinal ConvState.empty) (ConvState.empty.heap.length + 1) =
      some ⟨some "x", [ConvState.empty.heap.length]⟩ ∧
    heapGet (letExampleFinal ConvState.empty) ConvState.empty.heap.length =
      some ⟨some "1", []⟩ :=
  claim_C1 ConvState.empty rfl rfl

open SExprToTree in
/-- Claim C3: in the child-scanning loop, a keyword atom followed by an
existing non-keyword element consumes both and produces the child
(name: keyword, children: expand(value)); expand of an atom is one fresh leaf
with no Binding Environment lookup; expand of a list converts the elements and
splices them; any other element is converted normally and appended as one
child; and convert((f :key v :other (a b))) yields node f with exactly the two
children (:key (leaf v)) and (:other (leaf a) (leaf b)). -/
theorem claim_C3 (s : ConvState)
    (ha : mapGet s.leafMap "a" = none) (hb : mapGet s.leafMap "b" = none) :
    (∀ fuel k v rest s0, isKeywordStr k = true → isKeyword v = false →
       convertChildrenAux (fuel + 1) (.atom k :: v :: rest) s0 =
         (match convertToArrayAux fuel v s0 with
          | .error err => .error err
          | .ok (cids, s1) =>
            match convertChildrenAux fuel rest ⟨s1.heap ++ [⟨some k, cids⟩], s1.leafMap⟩ with
            | .error err => .error err
            | .ok (more, s3) => .ok (s1.heap.length :: more, s3))) ∧
    (∀ fuel a s0, convertToArrayAux (fuel + 1) (.atom a) s0 =
       .ok ([s0.heap.length], ⟨s0.heap ++ [⟨some a, []⟩], s0.leafMap⟩)) ∧
    (∀ fuel es s0, convertToArrayAux (fuel + 1) (.list es) s0 = convertListAux fuel es s0) ∧
    (∀ fuel k v rest s0, (isKeywordStr k = false ∨ isKeyword v = true) →
       convertChildrenAux (fuel + 1) (.atom k :: v :: rest) s0 =
         (match convertAux fuel (.atom k) s0 with
          | .error err => .error err
          | .ok (cid, s1) =>
            match convertChildrenAux fuel (v :: rest) s1 with
            | .error err => .error err
            | .ok (more, s2) => .ok (cid :: more, s2))) ∧
    (∀ fuel l v rest s0,
       convertChildrenAux (fuel + 1) (.list l :: v :: rest) s0 =
         (match convertAux fuel (.list l) s0 with
          | .error err => .error err
          | .ok (cid, s1) =>
            match convertChildrenAux fuel (v :: rest) s1 with
            | .error err => .error err
            | .ok (more, s2) => .ok (cid :: more, s2))) ∧
    convert kwExample s = .ok (s.heap.length + 5, kwExampleFinal s) ∧
    heapGet (kwExampleFinal s) (s.heap.length + 5) =
      some ⟨some "f", [s.heap.length + 1, s.heap.length + 4]⟩ ∧
    heapGet (kwExampleFinal s) (s.heap.length + 1) = some ⟨some ":key", [s.heap.length]⟩ ∧
    heapGet (kwExampleFinal s) s.heap.length = some ⟨some "v", []⟩ ∧
    heapGet (kwExampleFinal s) (s.heap.length + 4) =
      some ⟨some ":other", [s.heap.length + 2, s.heap.length + 3]⟩ ∧
    heapGet (kwExampleFinal s) (s.heap.length + 2) = some ⟨some "a", []⟩ ∧
    heapGet (kwExampleFinal s) (s.heap.length + 3) = some ⟨some "b", []⟩ := by
  refine ⟨?_, fun fuel a s0 => convertToArrayAux_atom fuel a s0,
    fun fuel es s0 => convertToArrayAux_list fuel es s0, ?_,
    fun fuel l v rest s0 => convertChildrenAux_list_cons fuel l v rest s0,
    convert_kwExample s ha hb, ?_, ?_, ?_, ?_, ?_, ?_⟩
  · intro fuel k v rest s0 hk hv
    rw [convertChildrenAux_atom_cons]
    rw [if_pos (by simp [hk, hv])]
  · intro fuel k v rest s0 hor
    rw [convertChildrenAux_atom_cons]
    refine if_neg ?_
    rcases hor with hk | hv
    · simp [hk]
    · simp [hv]
  · have := heapGet_append s.heap
      [⟨some "v", []⟩, ⟨some ":key", [s.heap.length]⟩, ⟨some "a", []⟩, ⟨some "b", []⟩,
        ⟨some ":other", [s.heap.length + 2, s.heap.length + 3]⟩,
        ⟨some "f", [s.heap.length + 1, s.heap.length + 4]⟩] s.leafMap 5
    simpa [kwExampleFinal] using this
  · have := heapGet_append s.heap
      [⟨some "v", []⟩, ⟨some ":key", [s.heap.length]⟩, ⟨some "a", []⟩, ⟨some "b", []⟩,
        ⟨some ":other", [s.heap.length + 2, s.heap.length + 3]⟩,
        ⟨some "f", [s.heap.length + 1, s.heap.length + 4]⟩] s.leafMap 1
    simpa [kwExampleFinal] using this
  · have := heapGet_append s.heap
      [⟨some "v", []⟩, ⟨some ":key", [s.heap.length]⟩, ⟨some "a", []⟩, ⟨some "b", []⟩,
        ⟨some ":other", [s.heap.length + 2, s.heap.length + 3]⟩,
        ⟨some "f", [s.heap.length + 1, s.heap.length + 4]⟩] s.leafMap 0
    simpa [kwExampleFinal] using this
  · have := heapGet_append s.heap
      [⟨some "v", []⟩, ⟨some ":key", [s.heap.length]⟩, ⟨some "a", []⟩, ⟨some "b", []⟩,
        ⟨some ":other", [s.heap.length + 2, s.heap.length + 3]⟩,
        ⟨some "f", [s.heap.length + 1, s.heap.length + 4]⟩] s.leafMap 4
    simpa [kwExampleFinal] using this
  · have := heapGet_append s.heap
      [⟨some "v", []⟩, ⟨some ":key", [s.heap.length]⟩, ⟨some "a", []⟩, ⟨some "b", []⟩,
        ⟨some ":other", [s.heap.length + 2, s.heap.length + 3]⟩,
        ⟨some "f", [s.heap.length + 1, s.heap.length + 4]⟩] s.leafMap 2
    simpa [kwExampleFinal] using this
  · have := heapGet_append s.heap
      [⟨some "v", []⟩, ⟨some ":key", [s.heap.length]⟩, ⟨some "a", []⟩, ⟨some "b", []⟩,
        ⟨some ":other", [s.heap.length + 2, s.heap.length + 3]⟩,
        ⟨some "f", [s.heap.length + 1, s.heap.length + 4]⟩] s.leafMap 3
    simpa [kwExampleFinal] using this

open SExprToTree in
/-- Witness for claim C3 at the empty session state: the general conjuncts as
stated, and the concrete conversion of (f :key v :other (a b)). -/
theorem claim_C3_witness :
    (∀ fuel k v rest s0, isKeywordStr k = true → isKeyword v = false →
       convertChildrenAux (fuel + 1) (.atom k :: v :: rest) s0 =
         (match convertToArrayAux fuel v s0 with
          | .error err => .error err
          | .ok (cids, s1) =>
            match convertChildrenAux fuel rest ⟨s1.heap ++ [⟨some k, cids⟩], s1.leafMap⟩ with
            | .error err => .error err
            | .ok (more, s3) => .ok (s1.heap.length :: more, s3))) ∧
    (∀ fuel a s0, convertToArrayAux (fuel + 1) (.atom a) s0 =
       .ok ([s0.heap.length], ⟨s0.heap ++ [⟨some a, []⟩], s0.leafMap⟩)) ∧
    (∀ fuel es s0, convertToArrayAux (fuel + 1) (.list es) s0 = convertListAux fuel es s0) ∧
    (∀ fuel k v rest s0, (isKeywordStr k = false ∨ isKeyword v = true) →
       convertChildrenAux (fuel + 1) (.atom k :: v :: rest) s0 =
         (match convertAux fuel (.atom k) s0 with
          | .error err => .error err
          | .ok (cid, s1) =>
            match convertChildrenAux fuel (v :: rest) s1 with
            | .error err => .error err
            | .ok (more, s2) => .ok (cid :: more, s2))) ∧
    (∀ fuel l v rest s0,
       convertChildrenAux (fuel + 1) (.list l :: v :: rest) s0 =
         (match convertAux fuel (.list l) s0 with
          | .error err => .error err
          | .ok (cid, s1) =>
            match convertChildrenAux fuel (v :: rest) s1 with
            | .error err => .error err
            | .ok (more, s2) => .ok (cid :: more, s2))) ∧
    convert kwExample ConvState.empty =
      .ok (ConvState.empty.heap.length + 5, kwExampleFinal ConvState.empty) ∧
    heapGet (kwExampleFinal ConvState.empty) (ConvState.empty.heap.length + 5) =
      some ⟨some "f", [ConvState.empty.heap.length + 1, ConvState.empty.heap.length + 4]⟩ ∧
    heapGet (kwExampleFinal ConvState.empty) (ConvState.empty.heap.length + 1) =
      some ⟨some ":key", [ConvState.empty.heap.length]⟩ ∧
    heapGet (kwExampleFinal ConvState.empty) ConvState.empty.heap.length =
      some ⟨some "v", []⟩ ∧
    heapGet (kwExampleFinal ConvState.empty) (ConvState.empty.heap.length + 4) =
      some ⟨some ":other", [ConvState.empty.heap.length + 2, ConvState.empty.heap.length + 3]⟩ ∧
    heapGet (kwExampleFinal ConvState.empty) (ConvState.empty.heap.length + 2) =
      some ⟨some "a", []⟩ ∧
    heapGet (kwExampleFinal ConvState.empty) (ConvState.empty.heap.length + 3) =
      some ⟨some "b", []⟩ :=
  claim_C3 ConvState.empty rfl rfl

open SExprToTree in
/-- Claim C6: the Binding Environment persists for the whole session. An atom
lookup resolves to whatever node the environment currently maps the name to;
a name bound by a let in one top-level expression still resolves in the next
top-level expression of the same document; it still resolves in a later,
separate document load of the same session; and a later let overwrites the
binding, after which lookups resolve to the new node. -/
theorem claim_C6 :
    (∀ fuel s k nid, mapGet s.leafMap k = some nid →
       convertAux (fuel + 1) (.atom k) s = .ok (nid, s)) ∧
    FileLoader.parseContent "(let ((x (a))) x) x".data ConvState.empty =
      .ok ([1, 1], ⟨[⟨some "a", []⟩, ⟨some "x", [0]⟩], [("x", 1)]⟩) ∧
    FileLoader.loadSession ["(let ((x (a))) x)".data, "x".data] ConvState.empty =
      .ok ([[1], [1]], ⟨[⟨some "a", []⟩, ⟨some "x", [0]⟩], [("x", 1)]⟩) ∧
    FileLoader.loadSession
        ["(let ((x (a))) x)".data, "(let ((x (b))) x)".data, "x".data] ConvState.empty =
      .ok ([[1], [3], [3]],
        ⟨[⟨some "a", []⟩, ⟨some "x", [0]⟩, ⟨some "b", []⟩, ⟨some "x", [2]⟩], [("x", 3)]⟩) := by
  refine ⟨?_, by decide, by decide, by decide⟩
  intro fuel s k nid h
  rw [convertAux_atom, h]

open SExprToTree in
/-- Witness for claim C6's environment-lookup conjunct at a concrete state. -/
theorem claim_C6_witness :
    convertAux 1 (.atom "x") ⟨[], [("x", 5)]⟩ = .ok (5, ⟨[], [("x", 5)]⟩) :=
  claim_C6.1 0 ⟨[], [("x", 5)]⟩ "x" 5 rfl

open ProofVisualizer in
/-- Claim C7: in the presentation layer, materialization happens exactly once
per occurrence. Expand, collapse, re-expand of the same element equals a
single expand (no re-materialization, no duplicates); once rendered, a click
only toggles visibility and keeps the materialized children; a collapse never
discards materialized state; a click delivered inside one child occurrence
leaves every sibling occurrence, and the element's own state, untouched; and
in a concrete heap where node 1 is shared under two edges of node 2,
expanding the first occurrence renders it while the second occurrence stays
collapsed and unrendered. -/
theorem claim_C7 :
    (∀ s e, VElem.rendered e = false → VElem.expanded e = false →
       click s (click s (click s e)) = click s e) ∧
    (∀ s e, VElem.rendered e = true →
       click s e = .mk (VElem.nid e) (!VElem.expanded e) true (VElem.kids e)) ∧
    (∀ s e, VElem.expanded e = true →
       click s e = .mk (VElem.nid e) false (VElem.rendered e) (VElem.kids e)) ∧
    (∀ s i p e j, ¬i = j →
       (VElem.kids (clickAt s (i :: p) e))[j]? = (VElem.kids e)[j]?) ∧
    (∀ s i p e, VElem.nid (clickAt s (i :: p) e) = VElem.nid e ∧
       VElem.expanded (clickAt s (i :: p) e) = VElem.expanded e ∧
       VElem.rendered (clickAt s (i :: p) e) = VElem.rendered e) ∧
    clickAt sharedHeapState [] (createNodeElement 2) =
      .mk 2 true true [.mk 1 false false [], .mk 1 false false []] ∧
    clickAt sharedHeapState [0] (clickAt sharedHeapState [] (createNodeElement 2)) =
      .mk 2 true true [.mk 1 true true [.mk 0 false false []], .mk 1 false false []] := by
  refine ⟨?_, ?_, ?_, ?_, ?_, rfl, rfl⟩
  · intro s e hr he
    cases e with
    | mk n ex r kids =>
      simp only [VElem.rendered] at hr
      simp only [VElem.expanded] at he
      subst hr; subst he
      simp [click]
  · intro s e hr
    cases e with
    | mk n ex r kids =>
      simp only [VElem.rendered] at hr
      subst hr
      simp [click, VElem.nid, VElem.expanded, VElem.kids]
  · intro s e he
    cases e with
    | mk n ex r kids =>
      simp only [VElem.expanded] at he
      subst he
      simp [click, VElem.nid, VElem.rendered, VElem.kids]
  · intro s i p e j hij
    cases e with
    | mk n ex r kids =>
      simp only [clickAt, VElem.kids]
      exact List.getElem?_set_ne hij
  · intro s i p e
    cases e with
    | mk n ex r kids =>
      simp [clickAt, VElem.nid, VElem.expanded, VElem.rendered]

open ProofVisualizer in
/-- Witness for claim C7's quantified conjuncts at concrete elements. -/
theorem claim_C7_witness :
    click sharedHeapState
        (click sharedHeapState (click sharedHeapState (createNodeElement 2))) =
      click sharedHeapState (createNodeElement 2) ∧
    click sharedHeapState (.mk 2 false true [.mk 7 true true []]) =
      .mk 2 true true [.mk 7 true true []] ∧
    click sharedHeapState (.mk 2 true false []) = .mk 2 false false [] ∧
    (VElem.kids (clickAt sharedHeapState [0]
        (.mk 2 true true [.mk 1 false false [], .mk 1 false false []])))[1]? =
      ([.mk 1 false false [], .mk 1 false false []] : List VElem)[1]? ∧
    VElem.nid (clickAt sharedHeapState [0]
        (.mk 2 true true [.mk 1 false false [], .mk 1 false false []])) = 2 :=
  ⟨claim_C7.1 sharedHeapState (createNodeElement 2) rfl rfl,
   claim_C7.2.1 sharedHeapState (.mk 2 false true [.mk 7 true true []]) rfl,
   claim_C7.2.2.1 sharedHeapState (.mk 2 true false []) rfl,
   claim_C7.2.2.2.1 sharedHeapState 0 [] (.mk 2 true true [.mk 1 false false [], .mk 1 false false []]) 1 (by decide),
   (claim_C7.2.2.2.2.1 sharedHeapState 0 []
     (.mk 2 true true [.mk 1 false false [], .mk 1 false false []])).1⟩

open SExprToTree in
/-- Claim C9: converting an S-expression in which no let/let-proof binding form
occurs succeeds and leaves the Binding Environment exactly unchanged; and for
every S-expression whatsoever, a successful conversion never removes an entry:
every key present in the environment before is still present afterwards. -/
theorem claim_C9 :
    (∀ e s, SExpr.noLet e = true →
       ∃ nid heap2, convert e s = .ok (nid, ⟨heap2, s.leafMap⟩)) ∧
    (∀ e s r k v, convert e s = .ok r → mapGet s.leafMap k = some v →
       ∃ w, mapGet r.2.leafMap k = some w) := by
  constructor
  · intro e s hn
    exact (convert_noLet_all (3 * e.size)).1 e s hn (le_refl _)
  · intro e s r k v h hk
    exact (convert_keysSub_all (3 * e.size)).1 e s r h k v hk

open SExprToTree in
/-- Witness for claim C9: a let-free expression converts with unchanged
environment from the empty state, and a conversion that succeeds against a
state binding q still has a binding for q afterwards. -/
theorem claim_C9_witness :
    (∃ nid heap2, convert (.list [.atom "g", .atom "y"]) ConvState.empty =
       .ok (nid, ⟨heap2, ConvState.empty.leafMap⟩)) ∧
    (∃ w, mapGet ((0 : Nat), (⟨[⟨some "n", []⟩], [("q", 0)]⟩ : ConvState)).2.leafMap "q" =
       some w) :=
  ⟨claim_C9.1 (.list [.atom "g", .atom "y"]) ConvState.empty rfl,
   claim_C9.2 (.atom "q") ⟨[⟨some "n", []⟩], [("q", 0)]⟩
     (0, ⟨[⟨some "n", []⟩], [("q", 0)]⟩) "q" 0 (by decide) rfl⟩
